import Mathlib

/-!
Verification model of the `dusty` disk-usage browser.

The Go program builds an in-memory tree of `DirInfo` nodes by a recursive
filesystem walk (`calculateDirSizeWithProgress`), publishes progress
snapshots after each completed top-level child, and then lets the user
navigate the finished tree (cursor movement, enter/exit, sort toggle,
jump to root) and delete entries (detach from the parent's children,
clamp the cursor, recompute ancestor sizes).

Embedding notes:
* Go pointer identity is modelled by a `Nat` node id allocated in scan
  order; the navigator's `currentDir` pointer is modelled by the list of
  ids on the path from the root down to the current node.
* `int64` byte counts are modelled as `Int` (no claim exercises overflow).
* The filesystem is modelled by the inductive `FSEntry`, with explicit
  constructors for the two I/O failure modes the code distinguishes:
  a failing `os.Stat` (the only error `calculateDirSize*` propagates)
  and a failing `os.ReadDir` (recorded on the node, not propagated).
-/

namespace Dusty

/-- Model of the Go struct `DirInfo`. The `Parent` back-pointer is not a
field here: parenthood is recovered from the position of a node inside the
tree (the navigator keeps the id-path to the current node, see `Model`).
The `Error error` field is modelled by the Bool `scanError` (set exactly
when the directory's `os.ReadDir` failed). The extra `id` field models Go
pointer identity: the scanner allocates one fresh id per created node. -/
inductive DirInfo where
  | node (id : Nat) (Path : String) (Size : Int) (IsDir : Bool) (scanError : Bool)
         (Children : List DirInfo)

/-- Pointer identity of a node. -/
def DirInfo.id : DirInfo → Nat
  | .node i _ _ _ _ _ => i

/-- The `Path` field. -/
def DirInfo.Path : DirInfo → String
  | .node _ p _ _ _ _ => p

/-- The `Size` field. -/
def DirInfo.Size : DirInfo → Int
  | .node _ _ s _ _ _ => s

/-- The `IsDir` field. -/
def DirInfo.IsDir : DirInfo → Bool
  | .node _ _ _ d _ _ => d

/-- Whether the node's `Error` field is set (its `os.ReadDir` failed). -/
def DirInfo.scanError : DirInfo → Bool
  | .node _ _ _ _ e _ => e

/-- The `Children` field. -/
def DirInfo.Children : DirInfo → List DirInfo
  | .node _ _ _ _ _ cs => cs

/-- Sum of the sizes of a list of nodes — the running `totalSize`
accumulation in `calculateDirSizeWithProgress` / `recalculateSizes`. -/
def sumSizes (cs : List DirInfo) : Int :=
  (cs.map DirInfo.Size).sum

/-! ### Sorting (model of `sort.Slice`)

`sort.Slice(children, less)` reorders a slice consistently with the `less`
comparator; the exact permutation it picks among ties is unspecified.  We
model it as an insertion sort driven by the same comparator, which is one
such consistent reordering. -/

/-- Insert `x` into `l`, placing it before the first element `y` with
`less x y`. -/
def insertLess (less : α → α → Bool) (x : α) : List α → List α
  | [] => [x]
  | y :: ys => if less x y then x :: y :: ys else y :: insertLess less x ys

/-- Model of `sort.Slice l less`. -/
def sortSlice (less : α → α → Bool) : List α → List α
  | [] => []
  | x :: xs => insertLess less x (sortSlice less xs)

/-- The size comparator used everywhere the source sorts by size:
`children[i].Size > children[j].Size` (descending size). -/
def sizeLess (a b : DirInfo) : Bool :=
  decide (b.Size < a.Size)

/-- Model of Go `filepath.Base` for the path strings the scanner builds:
last non-empty `/`-separated component; `"."` for the empty path, `"/"`
when the path consists only of slashes. -/
def baseName (p : String) : String :=
  match ((p.splitOn "/").filter (fun s => decide (s ≠ ""))).getLast? with
  | some c => c
  | none => if p = "" then "." else "/"

/-- The key the name comparator sorts on:
`strings.ToLower(filepath.Base(path))`. -/
def nameKey (t : DirInfo) : String :=
  (baseName t.Path).toLower

/-- The name comparator used by `sortChildren` in name mode
(case-insensitive ascending base name). -/
def nameLess (a b : DirInfo) : Bool :=
  decide (nameKey a < nameKey b)

/-! ### The filesystem model and the scanner -/

/-- Model of the filesystem tree the scanner walks. A `statErr` entry is
one whose `os.Stat` fails (the only failure `calculateDirSize*`
propagates to its caller); a `readDirErr` entry is a directory whose
`os.Stat` succeeds but whose `os.ReadDir` fails. -/
inductive FSEntry where
  | file (name : String) (size : Int)
  | dir (name : String) (entries : List FSEntry)
  | statErr (name : String)
  | readDirErr (name : String)

/-- The `entry.Name()` of a filesystem entry. -/
def entryName : FSEntry → String
  | .file n _ => n
  | .dir n _ => n
  | .statErr n => n
  | .readDirErr n => n

/-- Whether this entry's `os.Stat` fails. -/
def FSEntry.isStatErr : FSEntry → Bool
  | .statErr _ => true
  | _ => false

/-- Model of `filepath.Join(parent, name)` for the plain relative
components the scanner joins. -/
def joinPath (a b : String) : String :=
  a ++ "/" ++ b

mutual
/-- Model of `calculateDirSizeWithProgress` (and of the identical
tree-building logic in `calculateDirSize`): returns `none` exactly when
the entry's initial `os.Stat` fails; a directory whose `os.ReadDir` fails
is kept with `scanError`, empty children and size `0`; a child whose
recursive scan fails is skipped; the collected children are summed and
then sorted by descending size.  The `Nat` argument threads the next
fresh node id (Go allocates a fresh `&DirInfo{}` per visited entry); the
progress-channel sends are modelled separately in `scanDirectory`, since
they do not affect the returned tree. -/
def calculateDirSize : FSEntry → String → Nat → Option DirInfo × Nat
  | .statErr _, _, k => (none, k)
  | .file _ sz, path, k => (some (.node k path sz false false []), k + 1)
  | .readDirErr _, path, k => (some (.node k path 0 true true []), k + 1)
  | .dir _ es, path, k =>
    let r := scanEntries es path (k + 1)
    (some (.node k path (sumSizes r.1) true false (sortSlice sizeLess r.1)), r.2)

/-- The `for _, entry := range entries` loop body of
`calculateDirSizeWithProgress`: scan each entry under the parent path,
appending the successful results and skipping the failing ones. -/
def scanEntries : List FSEntry → String → Nat → List DirInfo × Nat
  | [], _, k => ([], k)
  | e :: es, path, k =>
    match calculateDirSize e (joinPath path (entryName e)) k with
    | (none, k₁) => scanEntries es path k₁
    | (some c, k₁) =>
      let r := scanEntries es path k₁
      (c :: r.1, r.2)
end

/-- One progress snapshot (`scanProgressMsg`): the observable content of
the partial root at the moment of publication — its current children
list and the running total size.  (The files/dirs counters are carried
too in the source but no claim concerns them.) -/
structure Snapshot where
  children : List DirInfo
  totalSize : Int

/-- The progress snapshots published by the root-level loop of
`calculateDirSizeWithProgress`: after the `j`-th direct child of the root
is appended, the snapshot shows the first `j+1` collected children (in
collection order — the root's children are only sorted after the loop)
and their running size total. -/
def snapshotsOf (cs : List DirInfo) : List Snapshot :=
  (List.range cs.length).map (fun j => ⟨cs.take (j + 1), sumSizes (cs.take (j + 1))⟩)

/-- Model of `scanDirectory`: the scan result (`none` models the
`scanCompleteMsg{nil, err}` fatal case) together with the progress
snapshots published before completion. -/
def scanDirectory (fs : FSEntry) (path : String) : Option DirInfo × List Snapshot :=
  ((calculateDirSize fs path 0).1,
    match fs with
    | .dir _ es => snapshotsOf (scanEntries es path 1).1
    | _ => [])

/-! ### The size formatter -/

/-- The unit-selection loop of `formatSize`:
`for n := bytes / unit; n >= unit; n /= unit { div *= unit; exp++ }`. -/
def sizeLoop (n : Nat) (div : Int) (exp : Nat) : Int × Nat :=
  if h : 1024 ≤ n then sizeLoop (n / 1024) (div * 1024) (exp + 1) else (div, exp)
termination_by n
decreasing_by exact Nat.div_lt_self (Nat.lt_of_lt_of_le (by norm_num) h) (by norm_num)

/-- The value printed by `%.1f` for `float64(bytes)/float64(div)`, in
tenths: exact rational rounding to the nearest tenth, ties to even.  This
agrees with Go's float64 formatting on every quotient the claims pin down
(each is exactly representable). -/
def roundTenths (bytes div : Int) : Int :=
  let q := (10 * bytes) / div
  let r := (10 * bytes) % div
  if div < 2 * r then q + 1
  else if 2 * r < div then q
  else if q % 2 = 0 then q else q + 1

/-- The unit letters `"KMGTPE"` indexed by the loop's exponent. -/
def unitChars : List Char := ['K', 'M', 'G', 'T', 'P', 'E']

/-- Model of `formatSize`. -/
def formatSize (bytes : Int) : String :=
  if bytes < 1024 then toString bytes ++ " B"
  else
    let p := sizeLoop (bytes.toNat / 1024) 1024 0
    let t := roundTenths bytes p.1
    toString (t / 10) ++ "." ++ toString (t % 10) ++ " "
      ++ String.singleton (unitChars.getD p.2 'E') ++ "B"

/-! ### The navigator / deleter state machine -/

/-- The two values of the model's `sortBy` string field
(`"size"` / `"name"`). -/
inductive SortMode where
  | size
  | name
deriving DecidableEq

/-- The post-scan interactive state of the Go `model` that the claims
concern: the tree root, the `currentDir` pointer (modelled as the id-path
from the root down to the current node; `[]` is the root itself), the
cursor index, and the sort mode.  Presentation-only fields (dimensions,
status text, spinner state) are omitted. -/
structure Model where
  rootDir : DirInfo
  currentDir : List Nat
  cursor : Nat
  sortBy : SortMode

/-- Find the child with a given id — the model's way of following one Go
pointer step downward. -/
def findChild (cs : List DirInfo) (i : Nat) : Option DirInfo :=
  cs.find? (fun c => c.id == i)

/-- Follow an id-path from a node downwards. -/
def resolve (t : DirInfo) : List Nat → Option DirInfo
  | [] => some t
  | i :: p =>
    match findChild t.Children i with
    | some c => resolve c p
    | none => none

/-- The comparator `sortChildren` uses for a given mode. -/
def lessFor : SortMode → DirInfo → DirInfo → Bool
  | .size => sizeLess
  | .name => nameLess

mutual
/-- Model of `(*model).sortChildren`: re-sort this directory's children
with the mode's comparator and recurse into every child.  (The source
sorts the slice first and then recurses; since the comparator reads only
fields the recursion preserves — `Size` and `Path` of the child's root —
recursing first yields the same list and gives structural termination.) -/
def sortChildren (mode : SortMode) : DirInfo → DirInfo
  | .node i p s d e cs => .node i p s d e (sortSlice (lessFor mode) (sortForest mode cs))

/-- `sortChildren` applied to each element of a forest. -/
def sortForest (mode : SortMode) : List DirInfo → List DirInfo
  | [] => []
  | c :: cs => sortChildren mode c :: sortForest mode cs
end

/-- Key `up`/`k`: move the cursor up, stopping at 0. -/
def moveUp (m : Model) : Model :=
  if 0 < m.cursor then { m with cursor := m.cursor - 1 } else m

/-- Key `down`/`j`: move the cursor down, stopping at the last child
(`m.cursor < len(children)-1` in the source; `cursor + 1 < len` here,
which agrees for every length including 0). -/
def moveDown (m : Model) : Model :=
  match resolve m.rootDir m.currentDir with
  | none => m
  | some cur =>
    if m.cursor + 1 < cur.Children.length then { m with cursor := m.cursor + 1 } else m

/-- Key `enter`/`right`/`l`: if the child under the cursor is a directory
with at least one child, make it current and reset the cursor.  (When the
children list is non-empty the source indexes `Children[m.cursor]`
unguarded — a panic if the cursor were out of bounds; the `none` branch
is unreachable under the cursor invariant, see the C10 theorem.) -/
def enterDir (m : Model) : Model :=
  match resolve m.rootDir m.currentDir with
  | none => m
  | some cur =>
    if 0 < cur.Children.length then
      match cur.Children[m.cursor]? with
      | none => m
      | some sel =>
        if sel.IsDir && 0 < sel.Children.length then
          { m with currentDir := m.currentDir ++ [sel.id], cursor := 0 }
        else m
    else m

/-- Key `left`/`h`/`backspace`: if the current node has a parent, look up
the current node among the parent's children by identity and put the
cursor there (the source's `for i, child := range parent.Children` loop
leaves the cursor untouched when no child matches), then make the parent
current. -/
def exitDir (m : Model) : Model :=
  match m.currentDir.getLast? with
  | none => m
  | some lastId =>
    match resolve m.rootDir m.currentDir.dropLast with
    | none => m
    | some parent =>
      { m with
        currentDir := m.currentDir.dropLast,
        cursor :=
          match parent.Children.findIdx? (fun c => c.id == lastId) with
          | some i => i
          | none => m.cursor }

/-- Key `s`: flip the sort mode, re-sort the whole tree from the root
with the new mode, reset the cursor. -/
def toggleSort (m : Model) : Model :=
  let mode := match m.sortBy with
    | .size => SortMode.name
    | .name => SortMode.size
  { m with sortBy := mode, rootDir := sortChildren mode m.rootDir, cursor := 0 }

/-- Key `home`: jump to the root. -/
def goToRoot (m : Model) : Model :=
  { m with currentDir := [], cursor := 0 }

/-- Drop the first child whose id matches — the
`for i, child := range ...; if child == msg.target { remove; break }`
loop of the `deleteCompleteMsg` handler. -/
def removeFirstById : List DirInfo → Nat → List DirInfo
  | [], _ => []
  | c :: cs, i => if c.id == i then cs else c :: removeFirstById cs i

/-- Replace the first child whose id matches by `f` of it — following one
Go pointer step downward while rebuilding the tree. -/
def updateFirstById (f : DirInfo → DirInfo) : List DirInfo → Nat → List DirInfo
  | [], _ => []
  | c :: cs, i => if c.id == i then f c :: cs else c :: updateFirstById f cs i

/-- The combined tree mutation of a successful delete: at the end of the
path, remove the target from the children (`removeFirstById`); along the
whole path — the deleted node's parent and all its ancestors up to the
root — recompute `Size` as the sum of the current children, exactly as
`recalculateSizes` does walking the `Parent` chain upward. -/
def deleteAt (tid : Nat) : List Nat → DirInfo → DirInfo
  | [], .node i p _ d e cs =>
    let cs' := removeFirstById cs tid
    .node i p (sumSizes cs') d e cs'
  | hd :: rest, .node i p _ d e cs =>
    let cs' := updateFirstById (fun c => deleteAt tid rest c) cs hd
    .node i p (sumSizes cs') d e cs'

/-- The delete interaction collapsed to one step (keys are ignored while
`m.deleting`, so the state cannot change between the `d` key and the
`deleteCompleteMsg`): the target is the child under the cursor (guarded
by a non-empty children list, as in the `d` handler; the unguarded
`Children[m.cursor]` index of the source is again the `none` branch); on
failure (`msg.err != nil`) only the transient status message changes —
the tree and the navigator are untouched; on success the target is
removed from the current node's children, the cursor is clamped
(`if cursor >= len(children) && cursor > 0 { cursor-- }`, with the
post-removal length), and ancestor sizes are recomputed. -/
def deleteComplete (ok : Bool) (m : Model) : Model :=
  if ok then
    match resolve m.rootDir m.currentDir with
    | none => m
    | some cur =>
      if 0 < cur.Children.length then
        match cur.Children[m.cursor]? with
        | none => m
        | some target =>
          let newLen := (removeFirstById cur.Children target.id).length
          { m with
            rootDir := deleteAt target.id m.currentDir m.rootDir,
            cursor := if newLen ≤ m.cursor ∧ 0 < m.cursor then m.cursor - 1 else m.cursor }
      else m
  else m

/-- The post-scan keyboard surface: every mutation the claims quantify
over. `del ok` is a delete of the selected child whose filesystem removal
succeeded (`ok = true`) or failed. -/
inductive NavOp where
  | up
  | down
  | enter
  | back
  | toggle
  | home
  | del (ok : Bool)

/-- Apply one operation. -/
def applyOp : NavOp → Model → Model
  | .up => moveUp
  | .down => moveDown
  | .enter => enterDir
  | .back => exitDir
  | .toggle => toggleSort
  | .home => goToRoot
  | .del ok => deleteComplete ok

/-- Apply a sequence of operations in order. -/
def runOps (ops : List NavOp) (m : Model) : Model :=
  ops.foldl (fun s o => applyOp o s) m

/-! ### Tree predicates used by the claims -/

mutual
/-- Every directory node's `Size` equals the sum of its children's sizes
(the §3 size invariant). -/
def sizeOk : DirInfo → Bool
  | .node _ _ s d _ cs => (!d || (s == sumSizes cs)) && forestOk cs

/-- `sizeOk` for every tree in a forest. -/
def forestOk : List DirInfo → Bool
  | [] => true
  | c :: cs => sizeOk c && forestOk cs
end

mutual
/-- Every non-directory node has no children (the §3 file-leaf
invariant). -/
def leafOk : DirInfo → Bool
  | .node _ _ _ d _ cs => (d || cs.isEmpty) && leafForestOk cs

/-- `leafOk` for every tree in a forest. -/
def leafForestOk : List DirInfo → Bool
  | [] => true
  | c :: cs => leafOk c && leafForestOk cs
end

mutual
/-- All node ids of a tree, root first. -/
def treeIds : DirInfo → List Nat
  | .node i _ _ _ _ cs => i :: forestIds cs

/-- All node ids of a forest. -/
def forestIds : List DirInfo → List Nat
  | [] => []
  | c :: cs => treeIds c ++ forestIds cs
end

mutual
/-- Every directory's children are in descending size order, recursively
(the scan's default presentation order). -/
def sizeSorted : DirInfo → Prop
  | .node _ _ _ _ _ cs => cs.Pairwise (fun a b => b.Size ≤ a.Size) ∧ sizeSortedForest cs

/-- `sizeSorted` for every tree in a forest. -/
def sizeSortedForest : List DirInfo → Prop
  | [] => True
  | c :: cs => sizeSorted c ∧ sizeSortedForest cs
end

mutual
/-- Every directory's children are ordered by the given mode's
comparator, recursively. -/
def modeSorted (mode : SortMode) : DirInfo → Prop
  | .node _ _ _ _ _ cs =>
    cs.Pairwise (fun a b => lessFor mode b a = false) ∧ modeSortedForest mode cs

/-- `modeSorted` for every tree in a forest. -/
def modeSortedForest (mode : SortMode) : List DirInfo → Prop
  | [] => True
  | c :: cs => modeSorted mode c ∧ modeSortedForest mode cs
end

end Dusty

/-! ### Basic facts about the embedding -/

namespace Dusty

@[simp] theorem DirInfo.id_node : (DirInfo.node i p s d e cs).id = i := rfl

@[simp] theorem DirInfo.Path_node : (DirInfo.node i p s d e cs).Path = p := rfl

@[simp] theorem DirInfo.Size_node : (DirInfo.node i p s d e cs).Size = s := rfl

@[simp] theorem DirInfo.IsDir_node : (DirInfo.node i p s d e cs).IsDir = d := rfl

@[simp] theorem DirInfo.scanError_node : (DirInfo.node i p s d e cs).scanError = e := rfl

@[simp] theorem DirInfo.Children_node : (DirInfo.node i p s d e cs).Children = cs := rfl

@[simp] theorem sumSizes_nil : sumSizes [] = 0 := rfl

@[simp] theorem sumSizes_cons : sumSizes (c :: cs) = c.Size + sumSizes cs := by
  simp [sumSizes]

theorem sumSizes_append (l₁ l₂ : List DirInfo) :
    sumSizes (l₁ ++ l₂) = sumSizes l₁ + sumSizes l₂ := by
  simp [sumSizes]

theorem insertLess_perm (less : α → α → Bool) (x : α) (l : List α) :
    List.Perm (insertLess less x l) (x :: l) := by
  induction l with
  | nil => simp [insertLess]
  | cons y ys ih =>
    simp only [insertLess]
    by_cases h : less x y
    · simp [h]
    · simp only [h, if_neg]
      exact (ih.cons y).trans (List.Perm.swap x y ys)

theorem sortSlice_perm (less : α → α → Bool) (l : List α) :
    List.Perm (sortSlice less l) l := by
  induction l with
  | nil => simp [sortSlice]
  | cons x xs ih =>
    exact (insertLess_perm less x (sortSlice less xs)).trans (ih.cons x)

theorem mem_sortSlice (less : α → α → Bool) (l : List α) (a : α) :
    a ∈ sortSlice less l ↔ a ∈ l :=
  (sortSlice_perm less l).mem_iff

theorem sumSizes_sortSlice (less : DirInfo → DirInfo → Bool) (l : List DirInfo) :
    sumSizes (sortSlice less l) = sumSizes l :=
  List.Perm.sum_eq ((sortSlice_perm less l).map DirInfo.Size)

theorem length_sortSlice (less : α → α → Bool) (l : List α) :
    (sortSlice less l).length = l.length :=
  (sortSlice_perm less l).length_eq

theorem insertLess_pairwise (less : α → α → Bool)
    (hasym : ∀ a b, less a b = true → less b a = false)
    (htr : ∀ a b c, less a b = true → less c b = false → less c a = false)
    (x : α) (l : List α)
    (hl : l.Pairwise (fun a b => less b a = false)) :
    (insertLess less x l).Pairwise (fun a b => less b a = false) := by
  induction l with
  | nil => simp [insertLess]
  | cons y ys ih =>
    rcases List.pairwise_cons.mp hl with ⟨hy, hys⟩
    simp only [insertLess]
    by_cases h : less x y
    · simp only [h, if_pos]
      refine List.pairwise_cons.mpr ⟨?_, hl⟩
      intro z hz
      rcases List.mem_cons.mp hz with hz | hz
      · subst hz
        exact hasym x z h
      · exact htr x y z h (hy z hz)
    · simp only [h, if_neg]
      refine List.pairwise_cons.mpr ⟨?_, ih hys⟩
      intro z hz
      have hz' := (insertLess_perm less x ys).mem_iff.mp hz
      rcases List.mem_cons.mp hz' with hz2 | hz2
      · subst hz2
        exact Bool.eq_false_iff.mpr h
      · exact hy z hz2

theorem sortSlice_pairwise (less : α → α → Bool)
    (hasym : ∀ a b, less a b = true → less b a = false)
    (htr : ∀ a b c, less a b = true → less c b = false → less c a = false)
    (l : List α) :
    (sortSlice less l).Pairwise (fun a b => less b a = false) := by
  induction l with
  | nil => simp [sortSlice]
  | cons x xs ih => exact insertLess_pairwise less hasym htr x _ ih

theorem sizeLess_asym (a b : DirInfo) (h : sizeLess a b = true) : sizeLess b a = false := by
  simp only [sizeLess, decide_eq_true_eq] at h
  simp only [sizeLess, decide_eq_false_iff_not]
  exact fun h' => absurd h (lt_asymm h')

theorem sizeLess_transNeg (a b c : DirInfo) (h₁ : sizeLess a b = true)
    (h₂ : sizeLess c b = false) : sizeLess c a = false := by
  simp only [sizeLess, decide_eq_true_eq] at h₁
  simp only [sizeLess, decide_eq_false_iff_not] at h₂ ⊢
  intro h₃
  exact h₂ (lt_trans h₁ h₃)

theorem nameLess_asym (a b : DirInfo) (h : nameLess a b = true) : nameLess b a = false := by
  simp only [nameLess, decide_eq_true_eq] at h
  simp only [nameLess, decide_eq_false_iff_not]
  exact fun h' => absurd h (lt_asymm h')

theorem nameLess_transNeg (a b c : DirInfo) (h₁ : nameLess a b = true)
    (h₂ : nameLess c b = false) : nameLess c a = false := by
  simp only [nameLess, decide_eq_true_eq] at h₁
  simp only [nameLess, decide_eq_false_iff_not] at h₂ ⊢
  intro h₃
  exact h₂ (lt_trans h₃ h₁)

theorem lessFor_asym (mode : SortMode) (a b : DirInfo) (h : lessFor mode a b = true) :
    lessFor mode b a = false := by
  cases mode with
  | size => exact sizeLess_asym a b h
  | name => exact nameLess_asym a b h

theorem lessFor_transNeg (mode : SortMode) (a b c : DirInfo) (h₁ : lessFor mode a b = true)
    (h₂ : lessFor mode c b = false) : lessFor mode c a = false := by
  cases mode with
  | size => exact sizeLess_transNeg a b c h₁ h₂
  | name => exact nameLess_transNeg a b c h₁ h₂

theorem sortSlice_sizeLess_sorted (l : List DirInfo) :
    (sortSlice sizeLess l).Pairwise (fun a b => b.Size ≤ a.Size) := by
  have h := sortSlice_pairwise sizeLess sizeLess_asym sizeLess_transNeg l
  refine h.imp ?_
  intro a b hab
  simpa [sizeLess] using hab

end Dusty

/-! ### Node ids, child lookup, and path resolution -/

namespace Dusty

@[simp] theorem treeIds_node : treeIds (.node i p s d e cs) = i :: forestIds cs := by
  simp [treeIds]

@[simp] theorem forestIds_nil : forestIds [] = [] := by simp [forestIds]

@[simp] theorem forestIds_cons : forestIds (c :: cs) = treeIds c ++ forestIds cs := by
  simp [forestIds]

theorem rootId_mem_treeIds (t : DirInfo) : t.id ∈ treeIds t := by
  cases t
  simp

theorem mem_forestIds_of_mem (hc : c ∈ cs) (hi : i ∈ treeIds c) : i ∈ forestIds cs := by
  induction cs with
  | nil => cases hc
  | cons x xs ih =>
    rcases List.mem_cons.mp hc with h | h
    · subst h
      simp [hi]
    · simp [ih h]

theorem nodup_treeIds_of_mem (hnd : (forestIds cs).Nodup) (hc : c ∈ cs) :
    (treeIds c).Nodup := by
  induction cs with
  | nil => cases hc
  | cons x xs ih =>
    rw [forestIds_cons] at hnd
    rcases List.nodup_append.mp hnd with ⟨h₁, h₂, _⟩
    rcases List.mem_cons.mp hc with h | h
    · subst h
      exact h₁
    · exact ih h₂ h

theorem nodup_map_id_of_nodup_forestIds (hnd : (forestIds cs).Nodup) :
    (cs.map DirInfo.id).Nodup := by
  induction cs with
  | nil => simp
  | cons x xs ih =>
    rw [forestIds_cons] at hnd
    rcases List.nodup_append.mp hnd with ⟨_, h₂, hdisj⟩
    rw [List.map_cons, List.nodup_cons]
    refine ⟨?_, ih h₂⟩
    intro hmem
    rcases List.mem_map.mp hmem with ⟨c, hc, hcid⟩
    exact hdisj (rootId_mem_treeIds x) (hcid ▸ mem_forestIds_of_mem hc (rootId_mem_treeIds c))

theorem nodup_forestIds_children (hnd : (treeIds t).Nodup) :
    (forestIds t.Children).Nodup := by
  cases t with
  | node i p s d e cs =>
    rw [treeIds_node, List.nodup_cons] at hnd
    exact hnd.2

theorem findChild_eq_some (h : findChild cs i = some c) : c ∈ cs ∧ c.id = i := by
  refine ⟨List.mem_of_find?_eq_some h, ?_⟩
  have := List.find?_some h
  simpa using this

theorem findChild_eq_none (h : findChild cs i = none) : ∀ c ∈ cs, c.id ≠ i := by
  intro c hc
  have := List.find?_eq_none.mp h c hc
  simpa using this

theorem findChild_of_mem (hnd : (cs.map DirInfo.id).Nodup) (hc : c ∈ cs) (hi : c.id = i) :
    findChild cs i = some c := by
  induction cs with
  | nil => cases hc
  | cons x xs ih =>
    rw [List.map_cons, List.nodup_cons] at hnd
    rcases List.mem_cons.mp hc with h | h
    · subst h
      simp [findChild, List.find?, hi]
    · have hxid : x.id ≠ i := by
        intro hxi
        exact hnd.1 (hxi ▸ hi ▸ List.mem_map.mpr ⟨c, h, rfl⟩)
      have : (x.id == i) = false := by simpa using hxid
      simp only [findChild, List.find?, this]
      exact ih hnd.2 h

@[simp] theorem resolve_nil (t : DirInfo) : resolve t [] = some t := rfl

theorem resolve_cons (t : DirInfo) (i : Nat) (p : List Nat) :
    resolve t (i :: p) =
      match findChild t.Children i with
      | some c => resolve c p
      | none => none := rfl

theorem resolve_append (t : DirInfo) (p q : List Nat) :
    resolve t (p ++ q) = (resolve t p).bind (fun c => resolve c q) := by
  induction p generalizing t with
  | nil => simp
  | cons i p ih =>
    rw [List.cons_append, resolve_cons, resolve_cons]
    cases h : findChild t.Children i with
    | none => simp
    | some c => simp [ih c]

theorem resolve_mem_child (h : resolve t (i :: p) = some c) :
    ∃ ch ∈ t.Children, ch.id = i ∧ resolve ch p = some c := by
  rw [resolve_cons] at h
  cases hf : findChild t.Children i with
  | none => rw [hf] at h; cases h
  | some ch =>
    rw [hf] at h
    rcases findChild_eq_some hf with ⟨hm, hid⟩
    exact ⟨ch, hm, hid, h⟩

theorem resolve_nodup (hnd : (treeIds t).Nodup) (h : resolve t p = some c) :
    (treeIds c).Nodup := by
  induction p generalizing t with
  | nil => rw [resolve_nil] at h; cases h; exact hnd
  | cons i p ih =>
    rcases resolve_mem_child h with ⟨ch, hm, _, hres⟩
    exact ih (nodup_treeIds_of_mem (nodup_forestIds_children hnd) hm) hres

theorem resolve_take (h : resolve t p = some c) (j : Nat) :
    ∃ a, resolve t (p.take j) = some a := by
  have : p = p.take j ++ p.drop j := (List.take_append_drop j p).symm
  rw [this, resolve_append] at h
  cases ha : resolve t (p.take j) with
  | none => rw [ha] at h; cases h
  | some a => exact ⟨a, rfl⟩

theorem findIdx?_go_of_nodup (i : Nat) :
    ∀ (cs : List DirInfo) (k j : Nat) (c : DirInfo),
      (cs.map DirInfo.id).Nodup → cs[j]? = some c → c.id = i →
      cs.findIdx? (fun x => x.id == i) k = some (k + j) := by
  intro cs
  induction cs with
  | nil => intro k j c _ hj; simp at hj
  | cons x xs ih =>
    intro k j c hnd hj hi
    rw [List.map_cons, List.nodup_cons] at hnd
    cases j with
    | zero =>
      rw [List.getElem?_cons_zero] at hj
      injection hj with hj
      subst hj
      have hx : (x.id == i) = true := by simp [hi]
      simp [List.findIdx?, hx]
    | succ j' =>
      rw [List.getElem?_cons_succ] at hj
      have hmem : c ∈ xs := List.getElem?_mem hj
      have hxid : x.id ≠ i := by
        intro hxi
        exact hnd.1 (hxi ▸ hi ▸ List.mem_map.mpr ⟨c, hmem, rfl⟩)
      have hx : (x.id == i) = false := by simpa using hxid
      have hrec := ih (k + 1) j' c hnd.2 hj hi
      have harith : k + 1 + j' = k + (j' + 1) := by omega
      simp only [List.findIdx?, hx, if_false]
      rw [hrec, harith]
      simp

theorem findIdx?_of_nodup (cs : List DirInfo) (j : Nat) (c : DirInfo)
    (hnd : (cs.map DirInfo.id).Nodup) (hj : cs[j]? = some c) (hi : c.id = i) :
    cs.findIdx? (fun x => x.id == i) = some j := by
  have := findIdx?_go_of_nodup i cs 0 j c hnd hj hi
  simpa using this

end Dusty

/-! ### Facts about `sortChildren` -/

namespace Dusty

@[simp] theorem sortChildren_node :
    sortChildren mode (.node i p s d e cs) =
      .node i p s d e (sortSlice (lessFor mode) (sortForest mode cs)) := by
  simp [sortChildren]

@[simp] theorem sortForest_nil : sortForest mode [] = [] := by simp [sortForest]

@[simp] theorem sortForest_cons :
    sortForest mode (c :: cs) = sortChildren mode c :: sortForest mode cs := by
  simp [sortForest]

theorem sortForest_eq_map (mode : SortMode) (cs : List DirInfo) :
    sortForest mode cs = cs.map (sortChildren mode) := by
  induction cs with
  | nil => simp
  | cons c cs ih => simp [ih]

@[simp] theorem sortChildren_id (mode : SortMode) (t : DirInfo) :
    (sortChildren mode t).id = t.id := by
  cases t; simp

@[simp] theorem sortChildren_Size (mode : SortMode) (t : DirInfo) :
    (sortChildren mode t).Size = t.Size := by
  cases t; simp

@[simp] theorem sortChildren_Path (mode : SortMode) (t : DirInfo) :
    (sortChildren mode t).Path = t.Path := by
  cases t; simp

@[simp] theorem sortChildren_IsDir (mode : SortMode) (t : DirInfo) :
    (sortChildren mode t).IsDir = t.IsDir := by
  cases t; simp

theorem forestIds_perm_of_perm (h : List.Perm cs₁ cs₂) :
    List.Perm (forestIds cs₁) (forestIds cs₂) := by
  induction h with
  | nil => simp
  | cons x _ ih => simpa using ih.append_left (treeIds x)
  | swap x y l =>
    simp only [forestIds_cons, ← List.append_assoc]
    exact (@List.perm_append_comm _ (treeIds y) (treeIds x)).append_right (forestIds l)
  | trans _ _ ih₁ ih₂ => exact ih₁.trans ih₂

mutual
theorem treeIds_sortChildren (mode : SortMode) :
    ∀ t, List.Perm (treeIds (sortChildren mode t)) (treeIds t)
  | .node i p s d e cs => by
    rw [sortChildren_node, treeIds_node, treeIds_node]
    exact ((forestIds_perm_of_perm
      (sortSlice_perm (lessFor mode) (sortForest mode cs))).trans
      (forestIds_sortForest mode cs)).cons i

theorem forestIds_sortForest (mode : SortMode) :
    ∀ cs, List.Perm (forestIds (sortForest mode cs)) (forestIds cs)
  | [] => by simp
  | c :: cs => by
    rw [sortForest_cons, forestIds_cons, forestIds_cons]
    exact (treeIds_sortChildren mode c).append (forestIds_sortForest mode cs)
end

theorem map_id_sortForest (mode : SortMode) (cs : List DirInfo) :
    (sortForest mode cs).map DirInfo.id = cs.map DirInfo.id := by
  rw [sortForest_eq_map, List.map_map]
  congr 1
  funext t
  simp

theorem findChild_sortSlice_sortForest (mode : SortMode) (cs : List DirInfo) (i : Nat)
    (hnd : (cs.map DirInfo.id).Nodup) :
    findChild (sortSlice (lessFor mode) (sortForest mode cs)) i =
      Option.map (sortChildren mode) (findChild cs i) := by
  have hnd' : ((sortSlice (lessFor mode) (sortForest mode cs)).map DirInfo.id).Nodup := by
    have hperm : List.Perm ((sortSlice (lessFor mode) (sortForest mode cs)).map DirInfo.id)
        ((sortForest mode cs).map DirInfo.id) :=
      (sortSlice_perm (lessFor mode) (sortForest mode cs)).map DirInfo.id
    rw [map_id_sortForest] at hperm
    exact hperm.nodup_iff.mpr hnd
  cases hf : findChild cs i with
  | some c =>
    rcases findChild_eq_some hf with ⟨hm, hid⟩
    have hmem : sortChildren mode c ∈ sortSlice (lessFor mode) (sortForest mode cs) := by
      rw [mem_sortSlice, sortForest_eq_map]
      exact List.mem_map.mpr ⟨c, hm, rfl⟩
    have : Option.map (sortChildren mode) (some c) = some (sortChildren mode c) := rfl
    rw [this]
    exact findChild_of_mem hnd' hmem (by simp [hid])
  | none =>
    have : Option.map (sortChildren mode) (none : Option DirInfo) = none := rfl
    rw [this]
    rw [findChild] at hf ⊢
    rw [List.find?_eq_none] at hf ⊢
    intro x hx
    rw [mem_sortSlice, sortForest_eq_map] at hx
    rcases List.mem_map.mp hx with ⟨c, hc, rfl⟩
    have := hf c hc
    simpa using this

theorem resolve_sortChildren (mode : SortMode) (t : DirInfo) (p : List Nat)
    (hnd : (treeIds t).Nodup) :
    resolve (sortChildren mode t) p = Option.map (sortChildren mode) (resolve t p) := by
  induction p generalizing t with
  | nil => simp
  | cons i p ih =>
    cases t with
    | node tid tp ts td te cs =>
      rw [sortChildren_node, resolve_cons, resolve_cons]
      simp only [DirInfo.Children_node]
      have hnd' : (cs.map DirInfo.id).Nodup :=
        nodup_map_id_of_nodup_forestIds (by
          rw [treeIds_node, List.nodup_cons] at hnd
          exact hnd.2)
      rw [findChild_sortSlice_sortForest mode cs i hnd']
      cases hf : findChild cs i with
      | none => simp
      | some c =>
        rcases findChild_eq_some hf with ⟨hm, _⟩
        have hcnd : (treeIds c).Nodup := by
          rw [treeIds_node, List.nodup_cons] at hnd
          exact nodup_treeIds_of_mem hnd.2 hm
        simpa using ih c hcnd

end Dusty

/-! ### Forest predicates -/

namespace Dusty

@[simp] theorem sizeOk_node :
    sizeOk (.node i p s d e cs) = ((!d || (s == sumSizes cs)) && forestOk cs) := by
  simp [sizeOk]

@[simp] theorem forestOk_nil : forestOk [] = true := by simp [forestOk]

@[simp] theorem forestOk_cons : forestOk (c :: cs) = (sizeOk c && forestOk cs) := by
  simp [forestOk]

theorem forestOk_iff (cs : List DirInfo) :
    forestOk cs = true ↔ ∀ c ∈ cs, sizeOk c = true := by
  induction cs with
  | nil => simp
  | cons c cs ih => simp [ih]

@[simp] theorem leafOk_node :
    leafOk (.node i p s d e cs) = ((d || cs.isEmpty) && leafForestOk cs) := by
  simp [leafOk]

@[simp] theorem leafForestOk_nil : leafForestOk [] = true := by simp [leafForestOk]

@[simp] theorem leafForestOk_cons :
    leafForestOk (c :: cs) = (leafOk c && leafForestOk cs) := by
  simp [leafForestOk]

theorem leafForestOk_iff (cs : List DirInfo) :
    leafForestOk cs = true ↔ ∀ c ∈ cs, leafOk c = true := by
  induction cs with
  | nil => simp
  | cons c cs ih => simp [ih]

@[simp] theorem sizeSorted_node :
    sizeSorted (.node i p s d e cs) ↔
      (cs.Pairwise (fun a b => b.Size ≤ a.Size) ∧ sizeSortedForest cs) := by
  simp [sizeSorted]

theorem sizeSortedForest_iff (cs : List DirInfo) :
    sizeSortedForest cs ↔ ∀ c ∈ cs, sizeSorted c := by
  induction cs with
  | nil => simp [sizeSortedForest]
  | cons c cs ih => simp [sizeSortedForest, ih]

@[simp] theorem modeSorted_node :
    modeSorted mode (.node i p s d e cs) ↔
      (cs.Pairwise (fun a b => lessFor mode b a = false) ∧ modeSortedForest mode cs) := by
  simp [modeSorted]

theorem modeSortedForest_iff (mode : SortMode) (cs : List DirInfo) :
    modeSortedForest mode cs ↔ ∀ c ∈ cs, modeSorted mode c := by
  induction cs with
  | nil => simp [modeSortedForest]
  | cons c cs ih => simp [modeSortedForest, ih]

mutual
theorem modeSorted_sortChildren (mode : SortMode) :
    ∀ t, modeSorted mode (sortChildren mode t)
  | .node i p s d e cs => by
    rw [sortChildren_node, modeSorted_node]
    refine ⟨sortSlice_pairwise (lessFor mode) (lessFor_asym mode) (lessFor_transNeg mode) _, ?_⟩
    rw [modeSortedForest_iff]
    intro c hc
    rw [mem_sortSlice, sortForest_eq_map] at hc
    rcases List.mem_map.mp hc with ⟨c', hc', rfl⟩
    exact modeSorted_sortChildren mode c'

theorem modeSortedForest_sortForest (mode : SortMode) :
    ∀ cs, modeSortedForest mode (sortForest mode cs)
  | [] => by simp [modeSortedForest]
  | c :: cs => by
    rw [sortForest_cons]
    exact ⟨modeSorted_sortChildren mode c, modeSortedForest_sortForest mode cs⟩
end

theorem sizeSorted_of_modeSorted_size : ∀ t, modeSorted SortMode.size t → sizeSorted t
  | .node i p s d e cs => by
    rw [modeSorted_node, sizeSorted_node]
    rintro ⟨hpw, hforest⟩
    constructor
    · refine hpw.imp ?_
      intro a b hab
      have : lessFor SortMode.size b a = sizeLess b a := rfl
      rw [this] at hab
      simpa [sizeLess] using hab
    · rw [sizeSortedForest_iff]
      rw [modeSortedForest_iff] at hforest
      intro c hc
      exact sizeSorted_of_modeSorted_size c (hforest c hc)

end Dusty

/-! ### Facts about the scanner -/

namespace Dusty

@[simp] theorem calculateDirSize_statErr :
    calculateDirSize (.statErr n) path k = (none, k) := by
  simp [calculateDirSize]

@[simp] theorem calculateDirSize_file :
    calculateDirSize (.file n sz) path k = (some (.node k path sz false false []), k + 1) := by
  simp [calculateDirSize]

@[simp] theorem calculateDirSize_readDirErr :
    calculateDirSize (.readDirErr n) path k = (some (.node k path 0 true true []), k + 1) := by
  simp [calculateDirSize]

theorem calculateDirSize_dir :
    calculateDirSize (.dir n es) path k =
      (some (.node k path (sumSizes (scanEntries es path (k + 1)).1) true false
        (sortSlice sizeLess (scanEntries es path (k + 1)).1)),
       (scanEntries es path (k + 1)).2) := by
  simp [calculateDirSize]

@[simp] theorem scanEntries_nil : scanEntries [] path k = ([], k) := by
  simp [scanEntries]

theorem scanEntries_cons :
    scanEntries (e :: es) path k =
      match calculateDirSize e (joinPath path (entryName e)) k with
      | (none, k₁) => scanEntries es path k₁
      | (some c, k₁) => (c :: (scanEntries es path k₁).1, (scanEntries es path k₁).2) := by
  conv => lhs; rw [scanEntries]

end Dusty

namespace Dusty

theorem calculateDirSize_none_iff (e : FSEntry) (path : String) (k : Nat) :
    (calculateDirSize e path k).1 = none ↔ e.isStatErr = true := by
  cases e with
  | file n sz => simp [FSEntry.isStatErr]
  | dir n es => simp [calculateDirSize_dir, FSEntry.isStatErr]
  | statErr n => simp [FSEntry.isStatErr]
  | readDirErr n => simp [FSEntry.isStatErr]

mutual
theorem scan_ok :
    ∀ (e : FSEntry) (path : String) (k : Nat) (t : DirInfo) (k' : Nat),
      calculateDirSize e path k = (some t, k') → sizeOk t = true ∧ leafOk t = true
  | .file n sz, path, k, t, k', h => by
    rw [calculateDirSize_file] at h
    rcases Prod.mk.injEq .. ▸ h with ⟨ht, _⟩
    cases Option.some.inj (by exact congrArg Prod.fst h)
    simp
  | .statErr n, path, k, t, k', h => by
    rw [calculateDirSize_statErr] at h
    cases (by exact congrArg Prod.fst h : (none : Option DirInfo) = some t)
  | .readDirErr n, path, k, t, k', h => by
    rw [calculateDirSize_readDirErr] at h
    cases Option.some.inj (by exact congrArg Prod.fst h)
    simp [sumSizes]
  | .dir n es, path, k, t, k', h => by
    rw [calculateDirSize_dir] at h
    cases Option.some.inj (by exact congrArg Prod.fst h)
    have hrec := scanEntries_ok es path (k + 1)
    constructor
    · rw [sizeOk_node]
      simp only [Bool.false_or, Bool.not_true, Bool.and_eq_true]
      refine ⟨by simp [sumSizes_sortSlice], ?_⟩
      rw [forestOk_iff]
      intro c hc
      rw [mem_sortSlice] at hc
      exact ((forestOk_iff _).mp hrec.1) c hc
    · rw [leafOk_node]
      simp only [Bool.true_or, Bool.true_and]
      rw [leafForestOk_iff]
      intro c hc
      rw [mem_sortSlice] at hc
      exact ((leafForestOk_iff _).mp hrec.2) c hc

theorem scanEntries_ok :
    ∀ (es : List FSEntry) (path : String) (k : Nat),
      forestOk (scanEntries es path k).1 = true ∧ leafForestOk (scanEntries es path k).1 = true
  | [], path, k => by simp
  | e :: es, path, k => by
    rw [scanEntries_cons]
    rcases hc : calculateDirSize e (joinPath path (entryName e)) k with ⟨o, k₁⟩
    cases o with
    | none => exact scanEntries_ok es path k₁
    | some c =>
      have hok := scan_ok e (joinPath path (entryName e)) k c k₁ hc
      have hrec := scanEntries_ok es path k₁
      simp [hok.1, hok.2, hrec.1, hrec.2]
end

end Dusty

namespace Dusty

mutual
theorem scan_ids :
    ∀ (e : FSEntry) (path : String) (k : Nat),
      k ≤ (calculateDirSize e path k).2 ∧
      ∀ t, (calculateDirSize e path k).1 = some t →
        (∀ i ∈ treeIds t, k ≤ i ∧ i < (calculateDirSize e path k).2) ∧ (treeIds t).Nodup
  | .file n sz, path, k => by
    rw [calculateDirSize_file]
    refine ⟨by omega, ?_⟩
    intro t ht
    cases Option.some.inj ht
    simp
  | .statErr n, path, k => by
    rw [calculateDirSize_statErr]
    exact ⟨le_refl k, fun t ht => by cases ht⟩
  | .readDirErr n, path, k => by
    rw [calculateDirSize_readDirErr]
    refine ⟨by omega, ?_⟩
    intro t ht
    cases Option.some.inj ht
    simp
  | .dir n es, path, k => by
    rw [calculateDirSize_dir]
    have hrec := scanEntries_ids es path (k + 1)
    refine ⟨by omega, ?_⟩
    intro t ht
    cases Option.some.inj ht
    have hperm : List.Perm (forestIds (sortSlice sizeLess (scanEntries es path (k + 1)).1))
        (forestIds (scanEntries es path (k + 1)).1) :=
      forestIds_perm_of_perm (sortSlice_perm sizeLess _)
    constructor
    · intro i hi
      rw [treeIds_node] at hi
      rcases List.mem_cons.mp hi with hi | hi
      · subst hi
        exact ⟨le_refl _, by omega⟩
      · have := hrec.2.1 i (hperm.mem_iff.mp hi)
        omega
    · rw [treeIds_node, List.nodup_cons]
      refine ⟨?_, hperm.nodup_iff.mpr hrec.2.2⟩
      intro hk
      have := hrec.2.1 k (hperm.mem_iff.mp hk)
      omega

theorem scanEntries_ids :
    ∀ (es : List FSEntry) (path : String) (k : Nat),
      k ≤ (scanEntries es path k).2 ∧
      (∀ i ∈ forestIds (scanEntries es path k).1, k ≤ i ∧ i < (scanEntries es path k).2) ∧
      (forestIds (scanEntries es path k).1).Nodup
  | [], path, k => by simp
  | e :: es, path, k => by
    rw [scanEntries_cons]
    rcases hc : calculateDirSize e (joinPath path (entryName e)) k with ⟨o, k₁⟩
    have hmono := (scan_ids e (joinPath path (entryName e)) k).1
    rw [hc] at hmono
    cases o with
    | none =>
      dsimp only
      have hrec := scanEntries_ids es path k₁
      exact ⟨by omega, fun i hi => by have := hrec.2.1 i hi; omega, hrec.2.2⟩
    | some c =>
      dsimp only
      have hcids := (scan_ids e (joinPath path (entryName e)) k).2 c (by rw [hc])
      rw [hc] at hcids
      have hrec := scanEntries_ids es path k₁
      refine ⟨by omega, ?_, ?_⟩
      · intro i hi
        rw [forestIds_cons] at hi
        rcases List.mem_append.mp hi with hi | hi
        · have := hcids.1 i hi
          omega
        · have := hrec.2.1 i hi
          omega
      · rw [forestIds_cons, List.nodup_append]
        refine ⟨hcids.2, hrec.2.2, ?_⟩
        intro i hi₁ hi₂
        have h₁ := hcids.1 i hi₁
        have h₂ := hrec.2.1 i hi₂
        omega
end

end Dusty

namespace Dusty

theorem scanEntries_length :
    ∀ (es : List FSEntry) (path : String) (k : Nat),
      (scanEntries es path k).1.length = (es.filter (fun e => !e.isStatErr)).length := by
  intro es
  induction es with
  | nil => intro path k; simp
  | cons e es ih =>
    intro path k
    rw [scanEntries_cons]
    cases e with
    | statErr n => simp [FSEntry.isStatErr, ih path k]
    | file n sz => simp [FSEntry.isStatErr, ih path (k + 1)]
    | readDirErr n => simp [FSEntry.isStatErr, ih path (k + 1)]
    | dir n es' =>
      rw [calculateDirSize_dir]
      simp [FSEntry.isStatErr, ih path _]

theorem scanEntries_readDirErr_mem :
    ∀ (es : List FSEntry) (path : String) (k j : Nat) (nm : String),
      es[j]? = some (.readDirErr nm) →
      ∃ c ∈ (scanEntries es path k).1,
        c.Path = joinPath path nm ∧ c.Size = 0 ∧ c.Children = [] ∧ c.scanError = true := by
  intro es
  induction es with
  | nil => intro path k j nm hj; simp at hj
  | cons e es ih =>
    intro path k j nm hj
    cases j with
    | zero =>
      rw [List.getElem?_cons_zero] at hj
      injection hj with hj
      subst hj
      rw [scanEntries_cons, calculateDirSize_readDirErr]
      exact ⟨.node k (joinPath path nm) 0 true true [], by simp [entryName], by simp⟩
    | succ j' =>
      rw [List.getElem?_cons_succ] at hj
      rw [scanEntries_cons]
      rcases hc : calculateDirSize e (joinPath path (entryName e)) k with ⟨o, k₁⟩
      cases o with
      | none =>
        dsimp only
        exact ih path k₁ j' nm hj
      | some c =>
        dsimp only
        rcases ih path k₁ j' nm hj with ⟨c', hc', hprops⟩
        exact ⟨c', List.mem_cons_of_mem c hc', hprops⟩

end Dusty

/-! ### Facts about the delete mutation -/

namespace Dusty

@[simp] theorem removeFirstById_nil : removeFirstById [] tid = [] := rfl

theorem removeFirstById_cons :
    removeFirstById (c :: cs) tid =
      if c.id == tid then cs else c :: removeFirstById cs tid := rfl

theorem removeFirstById_sublist (cs : List DirInfo) (tid : Nat) :
    List.Sublist (removeFirstById cs tid) cs := by
  induction cs with
  | nil => simp
  | cons c cs ih =>
    rw [removeFirstById_cons]
    by_cases h : (c.id == tid) = true
    · rw [if_pos h]
      exact (List.Sublist.refl cs).cons c
    · rw [if_neg h]
      exact ih.cons₂ c

theorem removeFirstById_length_cases (cs : List DirInfo) (tid : Nat) :
    (removeFirstById cs tid).length = cs.length ∨
      (removeFirstById cs tid).length + 1 = cs.length := by
  induction cs with
  | nil => simp
  | cons c cs ih =>
    rw [removeFirstById_cons]
    by_cases h : (c.id == tid) = true
    · rw [if_pos h]
      right
      simp
    · rw [if_neg h]
      rcases ih with ih | ih
      · left
        simp [ih]
      · right
        simpa using ih

theorem removeFirstById_found (hf : findChild cs tid = some c) :
    (removeFirstById cs tid).length + 1 = cs.length ∧
      sumSizes (removeFirstById cs tid) = sumSizes cs - c.Size := by
  induction cs with
  | nil => simp [findChild] at hf
  | cons x xs ih =>
    rw [findChild, List.find?_cons] at hf
    rw [removeFirstById_cons]
    cases hx : (x.id == tid) with
    | true =>
      rw [hx] at hf
      injection hf with hf
      subst hf
      rw [if_pos rfl]
      constructor
      · simp
      · simp
    | false =>
      rw [hx] at hf
      rw [if_neg (by simp [hx])]
      rcases ih hf with ⟨hlen, hsum⟩
      constructor
      · simpa using hlen
      · simp [hsum]
        ring

theorem removeFirstById_mem_iff (hnd : (cs.map DirInfo.id).Nodup) (x : DirInfo) :
    x ∈ removeFirstById cs tid ↔ (x ∈ cs ∧ x.id ≠ tid) := by
  induction cs with
  | nil => simp
  | cons c cs ih =>
    rw [List.map_cons, List.nodup_cons] at hnd
    rw [removeFirstById_cons]
    by_cases h : (c.id == tid) = true
    · rw [if_pos h]
      have hcid : c.id = tid := by simpa using h
      constructor
      · intro hx
        refine ⟨List.mem_cons_of_mem c hx, ?_⟩
        intro hxid
        apply hnd.1
        have hmm : x.id ∈ List.map DirInfo.id cs := List.mem_map.mpr ⟨x, hx, rfl⟩
        rwa [hxid, ← hcid] at hmm
      · rintro ⟨hx, hxid⟩
        rcases List.mem_cons.mp hx with rfl | hx
        · exact absurd hcid hxid
        · exact hx
    · rw [if_neg h]
      have hcid : c.id ≠ tid := by simpa using h
      constructor
      · intro hx
        rcases List.mem_cons.mp hx with rfl | hx
        · exact ⟨List.mem_cons_self .., hcid⟩
        · rcases (ih hnd.2).mp hx with ⟨hmem, hid⟩
          exact ⟨List.mem_cons_of_mem c hmem, hid⟩
      · rintro ⟨hx, hxid⟩
        rcases List.mem_cons.mp hx with rfl | hx
        · exact List.mem_cons_self ..
        · exact List.mem_cons_of_mem c ((ih hnd.2).mpr ⟨hx, hxid⟩)

@[simp] theorem updateFirstById_nil : updateFirstById f [] i = [] := rfl

theorem updateFirstById_cons :
    updateFirstById f (c :: cs) i =
      if c.id == i then f c :: cs else c :: updateFirstById f cs i := rfl

theorem findChild_updateFirstById (hpres : ∀ x, (f x).id = x.id) (cs : List DirInfo) (i : Nat) :
    findChild (updateFirstById f cs i) i = Option.map f (findChild cs i) := by
  induction cs with
  | nil => simp [findChild]
  | cons c cs ih =>
    rw [updateFirstById_cons]
    cases hc : (c.id == i) with
    | true =>
      rw [if_pos (by simp [hc])]
      have : ((f c).id == i) = true := by
        rw [hpres c]
        exact hc
      simp [findChild, List.find?_cons, this, hc]
    | false =>
      rw [if_neg (by simp [hc])]
      have : ((c).id == i) = false := hc
      simp only [findChild, List.find?_cons, this, cond_false]
      exact ih

theorem sumSizes_updateFirstById (hf : findChild cs i = some c) :
    sumSizes (updateFirstById f cs i) = sumSizes cs - c.Size + (f c).Size := by
  induction cs with
  | nil => simp [findChild] at hf
  | cons x xs ih =>
    rw [findChild, List.find?_cons] at hf
    rw [updateFirstById_cons]
    cases hx : (x.id == i) with
    | true =>
      rw [hx] at hf
      injection hf with hf
      subst hf
      rw [if_pos rfl]
      simp
      ring
    | false =>
      rw [hx] at hf
      rw [if_neg (by simp [hx])]
      rw [sumSizes_cons, sumSizes_cons, ih hf]
      ring

theorem updateFirstById_mem (hx : x ∈ updateFirstById f cs i) :
    x ∈ cs ∨ ∃ c ∈ cs, x = f c := by
  induction cs with
  | nil => simp at hx
  | cons c cs ih =>
    rw [updateFirstById_cons] at hx
    by_cases h : (c.id == i) = true
    · rw [if_pos h] at hx
      rcases List.mem_cons.mp hx with rfl | hx
      · exact Or.inr ⟨c, List.mem_cons_self .., rfl⟩
      · exact Or.inl (List.mem_cons_of_mem c hx)
    · rw [if_neg h] at hx
      rcases List.mem_cons.mp hx with rfl | hx
      · exact Or.inl (List.mem_cons_self ..)
      · rcases ih hx with hx | ⟨c', hc', rfl⟩
        · exact Or.inl (List.mem_cons_of_mem c hx)
        · exact Or.inr ⟨c', List.mem_cons_of_mem c hc', rfl⟩

theorem forestIds_updateFirstById (hsub : ∀ x, List.Sublist (treeIds (f x)) (treeIds x))
    (cs : List DirInfo) (i : Nat) :
    List.Sublist (forestIds (updateFirstById f cs i)) (forestIds cs) := by
  induction cs with
  | nil => simp
  | cons c cs ih =>
    rw [updateFirstById_cons]
    by_cases h : (c.id == i) = true
    · rw [if_pos h]
      rw [forestIds_cons, forestIds_cons]
      exact (hsub c).append (List.Sublist.refl _)
    · rw [if_neg h]
      rw [forestIds_cons, forestIds_cons]
      exact (List.Sublist.refl (treeIds c)).append ih

end Dusty

namespace Dusty

theorem deleteAt_nil :
    deleteAt tid [] (.node i p s d e cs) =
      .node i p (sumSizes (removeFirstById cs tid)) d e (removeFirstById cs tid) := rfl

theorem deleteAt_cons :
    deleteAt tid (hd :: rest) (.node i p s d e cs) =
      .node i p (sumSizes (updateFirstById (fun c => deleteAt tid rest c) cs hd)) d e
        (updateFirstById (fun c => deleteAt tid rest c) cs hd) := rfl

@[simp] theorem deleteAt_id (tid : Nat) (p : List Nat) (t : DirInfo) :
    (deleteAt tid p t).id = t.id := by
  cases p <;> cases t <;> rfl

@[simp] theorem deleteAt_IsDir (tid : Nat) (p : List Nat) (t : DirInfo) :
    (deleteAt tid p t).IsDir = t.IsDir := by
  cases p <;> cases t <;> rfl

@[simp] theorem deleteAt_Path (tid : Nat) (p : List Nat) (t : DirInfo) :
    (deleteAt tid p t).Path = t.Path := by
  cases p <;> cases t <;> rfl

theorem forestIds_sublist_of_sublist (h : List.Sublist cs₁ cs₂) :
    List.Sublist (forestIds cs₁) (forestIds cs₂) := by
  induction h with
  | slnil => simp
  | cons x _ ih =>
    rw [forestIds_cons]
    exact ih.trans (List.sublist_append_right (treeIds x) _)
  | cons₂ x _ ih =>
    rw [forestIds_cons, forestIds_cons]
    exact (List.Sublist.refl (treeIds x)).append ih

theorem treeIds_deleteAt_sublist (tid : Nat) :
    ∀ (p : List Nat) (t : DirInfo), List.Sublist (treeIds (deleteAt tid p t)) (treeIds t)
  | [], .node i pa s d e cs => by
    rw [deleteAt_nil, treeIds_node, treeIds_node]
    exact (forestIds_sublist_of_sublist (removeFirstById_sublist cs tid)).cons₂ i
  | hd :: rest, .node i pa s d e cs => by
    rw [deleteAt_cons, treeIds_node, treeIds_node]
    exact (forestIds_updateFirstById (fun x => treeIds_deleteAt_sublist tid rest x) cs hd).cons₂ i

theorem resolve_deleteAt (tid : Nat) :
    ∀ (p : List Nat) (t cur : DirInfo), resolve t p = some cur →
      resolve (deleteAt tid p t) p =
        some (.node cur.id cur.Path (sumSizes (removeFirstById cur.Children tid))
          cur.IsDir cur.scanError (removeFirstById cur.Children tid)) := by
  intro p
  induction p with
  | nil =>
    intro t cur h
    rw [resolve_nil] at h
    injection h with h
    subst h
    cases t with
    | node i pa s d e cs => simp [deleteAt_nil]
  | cons hd rest ih =>
    intro t cur h
    cases t with
    | node i pa s d e cs =>
      rw [resolve_cons] at h
      simp only [DirInfo.Children_node] at h
      cases hf : findChild cs hd with
      | none => rw [hf] at h; cases h
      | some c =>
        rw [hf] at h
        rw [deleteAt_cons, resolve_cons]
        simp only [DirInfo.Children_node]
        rw [findChild_updateFirstById (fun x => deleteAt_id tid rest x) cs hd, hf]
        exact ih c cur h

theorem sizeOk_deleteAt (tid : Nat) :
    ∀ (p : List Nat) (t : DirInfo), sizeOk t = true → sizeOk (deleteAt tid p t) = true
  | [], .node i pa s d e cs, h => by
    rw [sizeOk_node, Bool.and_eq_true] at h
    rw [deleteAt_nil, sizeOk_node, Bool.and_eq_true]
    refine ⟨by simp, ?_⟩
    rw [forestOk_iff]
    intro c hc
    exact (forestOk_iff cs).mp h.2 c ((removeFirstById_sublist cs tid).mem hc)
  | hd :: rest, .node i pa s d e cs, h => by
    rw [sizeOk_node, Bool.and_eq_true] at h
    rw [deleteAt_cons, sizeOk_node, Bool.and_eq_true]
    refine ⟨by simp, ?_⟩
    rw [forestOk_iff]
    intro c hc
    rcases updateFirstById_mem hc with hc | ⟨c', hc', rfl⟩
    · exact (forestOk_iff cs).mp h.2 c hc
    · exact sizeOk_deleteAt tid rest c' ((forestOk_iff cs).mp h.2 c' hc')

end Dusty

namespace Dusty

theorem dir_size_eq_sum (hsz : sizeOk (DirInfo.node i pa s d e cs) = true)
    (hlf : leafOk (DirInfo.node i pa s d e cs) = true) (hne : cs ≠ []) :
    s = sumSizes cs := by
  rw [leafOk_node, Bool.and_eq_true, Bool.or_eq_true] at hlf
  have hd : d = true := by
    rcases hlf.1 with hd | hemp
    · exact hd
    · exact absurd (List.isEmpty_iff.mp hemp) hne
  rw [sizeOk_node, Bool.and_eq_true, hd] at hsz
  have := hsz.1
  simp at this
  exact this

theorem deleteAt_size_delta (tid : Nat) :
    ∀ (p : List Nat) (t cur target : DirInfo),
      sizeOk t = true → leafOk t = true →
      resolve t p = some cur →
      findChild cur.Children tid = some target →
      ∀ j, ∃ a a', resolve t (p.take j) = some a ∧
        resolve (deleteAt tid p t) (p.take j) = some a' ∧
        a'.Size = a.Size - target.Size := by
  intro p
  induction p with
  | nil =>
    intro t cur target hsz hlf hres hf j
    rw [resolve_nil] at hres
    injection hres with hres
    subst hres
    cases t with
    | node i pa s d e cs =>
      simp only [DirInfo.Children_node] at hf
      refine ⟨.node i pa s d e cs, deleteAt tid [] (.node i pa s d e cs), by simp, by simp, ?_⟩
      rw [deleteAt_nil]
      simp only [DirInfo.Size_node]
      have htmem : target ∈ cs := (findChild_eq_some hf).1
      have hne : cs ≠ [] := List.ne_nil_of_mem htmem
      rw [(removeFirstById_found hf).2, dir_size_eq_sum hsz hlf hne]
  | cons hd rest ih =>
    intro t cur target hsz hlf hres hf j
    cases t with
    | node i pa s d e cs =>
      rw [resolve_cons] at hres
      simp only [DirInfo.Children_node] at hres
      cases hfc : findChild cs hd with
      | none => rw [hfc] at hres; cases hres
      | some c =>
        rw [hfc] at hres
        have hcmem : c ∈ cs := (findChild_eq_some hfc).1
        have hne : cs ≠ [] := List.ne_nil_of_mem hcmem
        have hszc : sizeOk c = true := by
          rw [sizeOk_node, Bool.and_eq_true] at hsz
          exact (forestOk_iff cs).mp hsz.2 c hcmem
        have hlfc : leafOk c = true := by
          rw [leafOk_node, Bool.and_eq_true] at hlf
          exact (leafForestOk_iff cs).mp hlf.2 c hcmem
        have hcdelta : (deleteAt tid rest c).Size = c.Size - target.Size := by
          rcases ih c cur target hszc hlfc hres hf 0 with ⟨a, a', ha, ha', hdelta⟩
          rw [List.take_zero, resolve_nil] at ha ha'
          injection ha with ha
          injection ha' with ha'
          rw [← ha, ← ha'] at hdelta
          exact hdelta
        cases j with
        | zero =>
          refine ⟨.node i pa s d e cs, deleteAt tid (hd :: rest) (.node i pa s d e cs),
            by simp, by simp, ?_⟩
          rw [deleteAt_cons]
          simp only [DirInfo.Size_node]
          rw [sumSizes_updateFirstById hfc, hcdelta, dir_size_eq_sum hsz hlf hne]
          ring
        | succ j' =>
          rcases ih c cur target hszc hlfc hres hf j' with ⟨a, a', ha, ha', hdelta⟩
          refine ⟨a, a', ?_, ?_, hdelta⟩
          · rw [List.take_succ_cons, resolve_cons]
            simp only [DirInfo.Children_node]
            rw [hfc]
            exact ha
          · rw [List.take_succ_cons, deleteAt_cons, resolve_cons]
            simp only [DirInfo.Children_node]
            rw [findChild_updateFirstById (fun x => deleteAt_id tid rest x) cs hd, hfc]
            exact ha'

end Dusty

/-! ### Facts about the size formatter -/

namespace Dusty

theorem sizeLoop_eq :
    ∀ (n : Nat) (div : Int) (exp : Nat),
      ∃ k, sizeLoop n div exp = (div * 1024 ^ k, exp + k) ∧
        n / 1024 ^ k < 1024 ∧ ∀ j < k, 1024 ≤ n / 1024 ^ j := by
  intro n
  induction n using Nat.strong_induction_on with
  | _ n ih =>
    intro div exp
    by_cases h : 1024 ≤ n
    · have hlt : n / 1024 < n := Nat.div_lt_self (by omega) (by norm_num)
      rcases ih (n / 1024) hlt (div * 1024) (exp + 1) with ⟨k', hk', hbound, hall⟩
      refine ⟨k' + 1, ?_, ?_, ?_⟩
      · rw [sizeLoop, dif_pos h, hk']
        rw [Prod.mk.injEq]
        constructor
        · rw [pow_succ]
          ring
        · omega
      · rw [pow_succ, ← Nat.div_div_eq_div_mul, Nat.div_div_eq_div_mul,
          Nat.mul_comm, ← Nat.div_div_eq_div_mul]
        exact hbound
      · intro j hj
        cases j with
        | zero => simpa using h
        | succ j' =>
          have := hall j' (by omega)
          rw [pow_succ, Nat.mul_comm, ← Nat.div_div_eq_div_mul]
          exact this
    · refine ⟨0, ?_, by simpa using Nat.lt_of_not_le h, by omega⟩
      rw [sizeLoop, dif_neg h]
      simp

end Dusty

namespace Dusty

theorem formatSize_big_shape (b : Int) (hb : 1024 ≤ b) (hub : b < 2 ^ 63) :
    ∃ (w r : Int) (c : Char) (exp : Nat),
      formatSize b = toString w ++ "." ++ toString r ++ " " ++ String.singleton c ++ "B" ∧
      1 ≤ w ∧ 0 ≤ r ∧ r < 10 ∧
      exp < 6 ∧ unitChars[exp]? = some c ∧
      (1024 : Int) ^ (exp + 1) ≤ b ∧ b < (1024 : Int) ^ (exp + 2) := by
  have hb0 : 0 ≤ b := by omega
  have hbN : ((b.toNat : Int)) = b := Int.toNat_of_nonneg hb0
  rcases sizeLoop_eq (b.toNat / 1024) 1024 0 with ⟨k, hk, hbound, hall⟩
  have hn₀ : 1 ≤ b.toNat / 1024 := by
    have : 1024 ≤ b.toNat := by omega
    omega
  have hmul : (b.toNat / 1024) * 1024 ≤ b.toNat := Nat.div_mul_le_self _ _
  -- k is at most 5 because b fits in an int64
  have hk5 : k < 6 := by
    by_contra hcon
    have h5 : 1024 ≤ (b.toNat / 1024) / 1024 ^ 5 := hall 5 (by omega)
    have h6 : 1024 * 1024 ^ 5 ≤ b.toNat / 1024 :=
      (Nat.le_div_iff_mul_le (by positivity)).mp h5
    have h7 : (1024 * 1024 ^ 5) * 1024 ≤ b.toNat := by
      calc (1024 * 1024 ^ 5) * 1024 ≤ (b.toNat / 1024) * 1024 :=
            Nat.mul_le_mul_right _ h6
        _ ≤ b.toNat := hmul
    have : b.toNat < 2 ^ 63 := by omega
    norm_num at h7
    omega
  -- lower bound: 1024 ^ (k+1) ≤ b
  have hlowN : 1024 ^ (k + 1) ≤ b.toNat := by
    cases k with
    | zero =>
      have h1024 : 1024 ≤ b.toNat := by omega
      simpa using h1024
    | succ k' =>
      have h1 : 1024 ≤ (b.toNat / 1024) / 1024 ^ k' := hall k' (by omega)
      have h2 : 1024 * 1024 ^ k' ≤ b.toNat / 1024 :=
        (Nat.le_div_iff_mul_le (by positivity)).mp h1
      calc 1024 ^ (k' + 1 + 1) = (1024 * 1024 ^ k') * 1024 := by ring
        _ ≤ (b.toNat / 1024) * 1024 := Nat.mul_le_mul_right _ h2
        _ ≤ b.toNat := hmul
  -- upper bound: b < 1024 ^ (k+2)
  have hupN : b.toNat < 1024 ^ (k + 2) := by
    have h1 : b.toNat / 1024 < 1024 ^ (k + 1) := by
      have := (Nat.div_lt_iff_lt_mul (by positivity : 0 < 1024 ^ k)).mp hbound
      calc b.toNat / 1024 < 1024 * 1024 ^ k := by omega
        _ = 1024 ^ (k + 1) := by ring
    have := (Nat.div_lt_iff_lt_mul (by norm_num : 0 < 1024)).mp h1
    calc b.toNat < 1024 ^ (k + 1) * 1024 := this
      _ = 1024 ^ (k + 2) := by ring
  have hlow : (1024 : Int) ^ (k + 1) ≤ b := by
    have hcast : ((1024 ^ (k + 1) : Nat) : Int) ≤ ((b.toNat : Nat) : Int) :=
      Int.ofNat_le.mpr hlowN
    push_cast at hcast
    omega
  have hup : b < (1024 : Int) ^ (k + 2) := by
    have hcast : ((b.toNat : Nat) : Int) < ((1024 ^ (k + 2) : Nat) : Int) :=
      Int.ofNat_lt.mpr hupN
    push_cast at hcast
    omega
  -- the divisor computed by the loop
  have hdiv : (1024 : Int) * 1024 ^ k = 1024 ^ (k + 1) := by ring
  have hdivpos : (0 : Int) < 1024 * 1024 ^ k := by positivity
  -- the printed tenths value
  set t := roundTenths b (1024 * 1024 ^ k) with ht
  have hq10 : 10 ≤ 10 * b / (1024 * 1024 ^ k) := by
    rw [Int.le_ediv_iff_mul_le hdivpos]
    rw [hdiv]
    omega
  have ht10 : 10 ≤ t := by
    rw [ht, roundTenths]
    split
    · omega
    · split
      · omega
      · split
        · omega
        · omega
  refine ⟨t / 10, t % 10, unitChars.getD k 'E', k, ?_, ?_, ?_, ?_, hk5, ?_, hlow, hup⟩
  · rw [formatSize, if_neg (by omega), hk]
    simp only [Nat.zero_add]
  · omega
  · exact Int.emod_nonneg t (by norm_num)
  · exact Int.emod_lt_of_pos t (by norm_num)
  · interval_cases k <;> rfl

end Dusty

/-! ### Remaining navigation helpers -/

namespace Dusty

theorem getLast?_decomp : ∀ (p : List Nat) (a : Nat), p.getLast? = some a →
    p.dropLast ++ [a] = p
  | [], a, h => by simp at h
  | [x], a, h => by
    simp at h
    subst h
    rfl
  | x :: y :: rest, a, h => by
    rw [List.getLast?_cons_cons] at h
    have := getLast?_decomp (y :: rest) a h
    simp only [List.dropLast_cons₂, List.cons_append]
    rw [this]

theorem findIdx?_go_lt_length (p : DirInfo → Bool) :
    ∀ (l : List DirInfo) (k i : Nat), l.findIdx? p k = some i → k ≤ i ∧ i - k < l.length := by
  intro l
  induction l with
  | nil => intro k i h; simp [List.findIdx?] at h
  | cons x xs ih =>
    intro k i h
    rw [List.findIdx?] at h
    by_cases hx : p x = true
    · rw [if_pos hx] at h
      injection h with h
      subst h
      simp
    · rw [if_neg hx] at h
      have := ih (k + 1) i h
      constructor
      · omega
      · simp
        omega

theorem findIdx?_lt_length (p : DirInfo → Bool) (l : List DirInfo) (i : Nat)
    (h : l.findIdx? p = some i) : i < l.length := by
  have := findIdx?_go_lt_length p l 0 i h
  omega

end Dusty

/-! ### The claims -/

namespace Dusty

/-- C9: the size formatter returns the integer byte count with a `" B"`
suffix for every value below 1024, and for every larger value that fits
in an `int64` a base-1024-scaled value with exactly one decimal place
and the unit letter matching the value's magnitude; in particular
`formatSize 0 = "0 B"`, `formatSize 1023 = "1023 B"`,
`formatSize 1024 = "1.0 KB"`, `formatSize 1536 = "1.5 KB"` and
`formatSize 1048576 = "1.0 MB"`. -/
theorem C9_formatSize :
    (∀ b : Int, b < 1024 → formatSize b = toString b ++ " B") ∧
    (∀ b : Int, 1024 ≤ b → b < 2 ^ 63 →
      ∃ (w r : Int) (c : Char) (exp : Nat),
        formatSize b = toString w ++ "." ++ toString r ++ " " ++ String.singleton c ++ "B" ∧
        1 ≤ w ∧ 0 ≤ r ∧ r < 10 ∧
        exp < 6 ∧ unitChars[exp]? = some c ∧
        (1024 : Int) ^ (exp + 1) ≤ b ∧ b < (1024 : Int) ^ (exp + 2)) ∧
    formatSize 0 = "0 B" ∧ formatSize 1023 = "1023 B" ∧ formatSize 1024 = "1.0 KB" ∧
    formatSize 1536 = "1.5 KB" ∧ formatSize 1048576 = "1.0 MB" := by
  refine ⟨?_, formatSize_big_shape, ?_, ?_, ?_, ?_, ?_⟩
  · intro b hb
    rw [formatSize, if_pos hb]
  · simp [formatSize]
    decide
  · simp [formatSize]
    decide
  · simp [formatSize, sizeLoop, roundTenths, unitChars]
    decide
  · simp [formatSize, sizeLoop, roundTenths, unitChars]
    decide
  · simp [formatSize, sizeLoop, roundTenths, unitChars]
    decide

/-- Witness for C9 at the concrete inputs 500 and 2048. -/
theorem C9_formatSize_witness :
    formatSize 500 = toString (500 : Int) ++ " B" ∧
    (∃ (w r : Int) (c : Char) (exp : Nat),
      formatSize 2048 = toString w ++ "." ++ toString r ++ " " ++ String.singleton c ++ "B" ∧
      1 ≤ w ∧ 0 ≤ r ∧ r < 10 ∧
      exp < 6 ∧ unitChars[exp]? = some c ∧
      (1024 : Int) ^ (exp + 1) ≤ 2048 ∧ (2048 : Int) < (1024 : Int) ^ (exp + 2)) :=
  ⟨C9_formatSize.1 500 (by norm_num), C9_formatSize.2.1 2048 (by norm_num) (by norm_num)⟩

/-- C2: the scan returns a fatal `(nil, error)` result exactly when the
initial stat of the scan root fails; every other filesystem shape —
unreadable files and unlistable subdirectories included — yields a
non-nil root and no error. -/
theorem C2_scan_fatal_iff (fs : FSEntry) (path : String) :
    (scanDirectory fs path).1 = none ↔ fs.isStatErr = true :=
  calculateDirSize_none_iff fs path 0

/-- C4: scanning a directory never aborts because of a failing child:
the scanned children are exactly the entries whose own stat succeeds
(stat-failing children are skipped), and a child directory whose entry
listing fails is retained in the tree with its error recorded, empty
children and size 0. -/
theorem C4_partial_errors (n : String) (es : List FSEntry) (path : String) (k : Nat) :
    ∃ t k', calculateDirSize (.dir n es) path k = (some t, k') ∧
      t.Children.length = (es.filter (fun e => !e.isStatErr)).length ∧
      ∀ (j : Nat) (nm : String), es[j]? = some (FSEntry.readDirErr nm) →
        ∃ c ∈ t.Children, c.Path = joinPath path nm ∧ c.Size = 0 ∧
          c.Children = [] ∧ c.scanError = true := by
  rw [calculateDirSize_dir]
  refine ⟨_, _, rfl, ?_, ?_⟩
  · simp only [DirInfo.Children_node]
    rw [length_sortSlice, scanEntries_length]
  · intro j nm hj
    simp only [DirInfo.Children_node]
    rcases scanEntries_readDirErr_mem es path (k + 1) j nm hj with ⟨c, hc, hprops⟩
    exact ⟨c, (mem_sortSlice _ _ c).mpr hc, hprops⟩

/-- Witness for C4: a directory holding one unlistable subdirectory and
one stat-failing entry. -/
theorem C4_partial_errors_witness :
    ∃ t k', calculateDirSize (.dir "top" [.readDirErr "bad", .statErr "gone"]) "top" 0 =
        (some t, k') ∧
      t.Children.length =
        ([FSEntry.readDirErr "bad", FSEntry.statErr "gone"].filter
          (fun e => !e.isStatErr)).length ∧
      ∀ (j : Nat) (nm : String),
        ([FSEntry.readDirErr "bad", FSEntry.statErr "gone"] : List FSEntry)[j]? =
            some (FSEntry.readDirErr nm) →
        ∃ c ∈ t.Children, c.Path = joinPath "top" nm ∧ c.Size = 0 ∧
          c.Children = [] ∧ c.scanError = true :=
  C4_partial_errors "top" [.readDirErr "bad", .statErr "gone"] "top" 0

/-- C5 (code bug): the view labels the progress preview "Largest items
found" and the spec asks for the top-5 largest children, but the
snapshots published while the scan runs carry the partial root's children
in collection order — they are only sorted after the loop.  Scanning a
directory whose entries are a 1-byte file followed by a 2-byte file
publishes a second snapshot whose children are not in descending size
order. -/
theorem C5_snapshot_unsorted :
    ((scanDirectory (.dir "top" [.file "a" 1, .file "b" 2]) "top").2)[1]? =
      some ⟨[.node 1 "top/a" 1 false false [], .node 2 "top/b" 2 false false []], 3⟩ ∧
    ¬ ([DirInfo.node 1 "top/a" 1 false false [],
        DirInfo.node 2 "top/b" 2 false false []].Pairwise
        (fun a b => b.Size ≤ a.Size)) := by
  constructor
  · simp [scanDirectory, scanEntries, calculateDirSize, joinPath, entryName, snapshotsOf,
      sumSizes, List.range_succ]
  · decide

/-- C1: every directory's size equals the sum of its children's sizes,
both on the tree the scan returns and after any delete completion
(successful or failed) re-establishes it through the upward
recomputation. -/
theorem C1_size_invariant :
    (∀ (fs : FSEntry) (path : String) (t : DirInfo) (k : Nat),
      calculateDirSize fs path 0 = (some t, k) → sizeOk t = true) ∧
    (∀ (m : Model) (ok : Bool), sizeOk m.rootDir = true →
      sizeOk (deleteComplete ok m).rootDir = true) := by
  constructor
  · intro fs path t k h
    exact (scan_ok fs path 0 t k h).1
  · intro m ok h
    rw [deleteComplete]
    cases ok with
    | false => simpa using h
    | true =>
      simp only [if_true]
      cases hres : resolve m.rootDir m.currentDir with
      | none => simpa using h
      | some cur =>
        dsimp only
        by_cases hlen : 0 < cur.Children.length
        · rw [if_pos hlen]
          cases hsel : cur.Children[m.cursor]? with
          | none => simpa using h
          | some target =>
            simpa using sizeOk_deleteAt target.id m.currentDir m.rootDir h
        · rw [if_neg hlen]
          simpa using h

/-- Witness for C1: the scan of a two-file directory satisfies the size
invariant, and so does the tree after deleting the selected child. -/
theorem C1_size_invariant_witness :
    sizeOk (.node 0 "top" 3 true false
      [.node 2 "top/b" 2 false false [], .node 1 "top/a" 1 false false []]) = true ∧
    sizeOk (deleteComplete true
      ⟨.node 0 "top" 3 true false
        [.node 2 "top/b" 2 false false [], .node 1 "top/a" 1 false false []],
       [], 0, .size⟩).rootDir = true := by
  constructor
  · exact C1_size_invariant.1 (.dir "top" [.file "a" 1, .file "b" 2]) "top" _ 3
      (by simp [calculateDirSize, scanEntries, joinPath, entryName, sumSizes, sortSlice,
        insertLess, sizeLess])
  · exact C1_size_invariant.2
      ⟨.node 0 "top" 3 true false
        [.node 2 "top/b" 2 false false [], .node 1 "top/a" 1 false false []],
       [], 0, .size⟩ true (by decide)

end Dusty

namespace Dusty

/-- C6 (corrected): when the current node has a parent but is not found
among the parent's children by identity, `exitDir` makes the parent
current and leaves the cursor index unchanged — the source's
`for i, child := range parent.Children` loop simply never assigns
`m.cursor` when no child matches, so there is no reset to 0. -/
theorem C6_exit_not_found (m : Model) (lastId : Nat) (parent : DirInfo)
    (hlast : m.currentDir.getLast? = some lastId)
    (hpar : resolve m.rootDir m.currentDir.dropLast = some parent)
    (hnot : ∀ c ∈ parent.Children, c.id ≠ lastId) :
    exitDir m = { m with currentDir := m.currentDir.dropLast } := by
  rw [exitDir, hlast, hpar]
  dsimp only
  have hnone : parent.Children.findIdx? (fun c => c.id == lastId) = none := by
    rw [List.findIdx?_eq_none_iff]
    intro c hc
    simpa using hnot c hc
  rw [hnone]

end Dusty

namespace Dusty

/-- Counterexample for C6 as stated: a navigator state whose current node
has a parent (the root resolves as its parent) but is absent from the
parent's children; `exitDir` moves to the parent yet leaves the cursor at
3 instead of resetting it to 0. -/
theorem C6_counterexample :
    ([2] : List Nat) ≠ [] ∧
    resolve (DirInfo.node 0 "r" 3 true false [.node 1 "r/a" 3 false false []])
      ([2] : List Nat).dropLast =
      some (DirInfo.node 0 "r" 3 true false [.node 1 "r/a" 3 false false []]) ∧
    (∀ c ∈ (DirInfo.node 0 "r" 3 true false [.node 1 "r/a" 3 false false []]).Children,
      c.id ≠ 2) ∧
    (exitDir ⟨.node 0 "r" 3 true false [.node 1 "r/a" 3 false false []],
      [2], 3, .size⟩).cursor = 3 ∧
    (exitDir ⟨.node 0 "r" 3 true false [.node 1 "r/a" 3 false false []],
      [2], 3, .size⟩).cursor ≠ 0 := by
  refine ⟨by decide, rfl, by decide, rfl, by decide⟩

/-- Witness for the corrected C6 at the same concrete state. -/
theorem C6_exit_not_found_witness :
    exitDir ⟨DirInfo.node 0 "r" 3 true false [.node 1 "r/a" 3 false false []],
      [2], 3, .size⟩ =
    { (⟨DirInfo.node 0 "r" 3 true false [.node 1 "r/a" 3 false false []],
        [2], 3, .size⟩ : Model) with currentDir := ([2] : List Nat).dropLast } :=
  C6_exit_not_found _ 2 (DirInfo.node 0 "r" 3 true false [.node 1 "r/a" 3 false false []])
    rfl rfl (by decide)

/-- C7: toggling the sort twice from the default size mode leaves every
directory's children sorted by descending size again (an order equivalent
to the scan's default) with the same node multiset, and every single
toggle resets the cursor to 0 and re-sorts the entire tree — every
directory, recursively from the root — by the new mode's comparator. -/
theorem C7_toggle :
    (∀ m : Model, m.sortBy = SortMode.size →
      sizeSorted (toggleSort (toggleSort m)).rootDir) ∧
    (∀ m : Model,
      (toggleSort m).cursor = 0 ∧
      modeSorted (toggleSort m).sortBy (toggleSort m).rootDir ∧
      List.Perm (treeIds (toggleSort m).rootDir) (treeIds m.rootDir)) := by
  constructor
  · intro m hsb
    rw [toggleSort, toggleSort, hsb]
    dsimp only
    exact sizeSorted_of_modeSorted_size _ (modeSorted_sortChildren SortMode.size _)
  · intro m
    refine ⟨rfl, ?_, ?_⟩
    · rw [toggleSort]
      cases m.sortBy <;> exact modeSorted_sortChildren _ _
    · rw [toggleSort]
      dsimp only
      exact treeIds_sortChildren _ _

/-- Witness for C7 on a concrete two-file tree in size mode. -/
theorem C7_toggle_witness :
    sizeSorted (toggleSort (toggleSort
      (⟨.node 0 "top" 3 true false
        [.node 2 "top/b" 2 false false [], .node 1 "top/a" 1 false false []],
       [], 0, .size⟩ : Model))).rootDir ∧
    (toggleSort (⟨.node 0 "top" 3 true false
        [.node 2 "top/b" 2 false false [], .node 1 "top/a" 1 false false []],
       [], 0, .size⟩ : Model)).cursor = 0 :=
  ⟨C7_toggle.1 _ rfl, (C7_toggle.2 _).1⟩

end Dusty

namespace Dusty

/-- C8: exiting at the root is a no-op, and entering the directory under
the cursor and exiting again — with no toggle or delete in between —
restores the previous current node and the previous cursor index. -/
theorem C8_enter_exit :
    (∀ m : Model, m.currentDir = [] → exitDir m = m) ∧
    (∀ (m : Model) (cur sel : DirInfo),
      (treeIds m.rootDir).Nodup →
      resolve m.rootDir m.currentDir = some cur →
      cur.Children[m.cursor]? = some sel →
      sel.IsDir = true → 0 < sel.Children.length →
      exitDir (enterDir m) = m) := by
  constructor
  · intro m h
    rw [exitDir, h]
    rfl
  · intro m cur sel hnd hres hsel hdir hne
    have hlt : m.cursor < cur.Children.length := by
      by_contra hge
      rw [List.getElem?_eq_none (by omega)] at hsel
      cases hsel
    have henter : enterDir m =
        { m with currentDir := m.currentDir ++ [sel.id], cursor := 0 } := by
      rw [enterDir, hres]
      dsimp only
      rw [if_pos (by omega), hsel]
      dsimp only
      rw [if_pos (by simp [hdir, hne])]
    rw [henter, exitDir]
    simp only [List.getLast?_concat, List.dropLast_concat]
    rw [hres]
    dsimp only
    have hnd' : (cur.Children.map DirInfo.id).Nodup :=
      nodup_map_id_of_nodup_forestIds (nodup_forestIds_children (resolve_nodup hnd hres))
    rw [findIdx?_of_nodup cur.Children m.cursor sel hnd' hsel rfl]

/-- Witness for C8: exit at the root is a no-op and an enter/exit
round-trip restores the state on a concrete three-node tree. -/
theorem C8_enter_exit_witness :
    exitDir (⟨.node 0 "r" 5 true false
        [.node 1 "r/a" 5 true false [.node 2 "r/a/x" 5 false false []]],
      [], 0, .size⟩ : Model) =
      ⟨.node 0 "r" 5 true false
        [.node 1 "r/a" 5 true false [.node 2 "r/a/x" 5 false false []]],
       [], 0, .size⟩ ∧
    exitDir (enterDir (⟨.node 0 "r" 5 true false
        [.node 1 "r/a" 5 true false [.node 2 "r/a/x" 5 false false []]],
      [], 0, .size⟩ : Model)) =
      ⟨.node 0 "r" 5 true false
        [.node 1 "r/a" 5 true false [.node 2 "r/a/x" 5 false false []]],
       [], 0, .size⟩ :=
  ⟨C8_enter_exit.1 _ rfl,
   C8_enter_exit.2 _
     (.node 0 "r" 5 true false
       [.node 1 "r/a" 5 true false [.node 2 "r/a/x" 5 false false []]])
     (.node 1 "r/a" 5 true false [.node 2 "r/a/x" 5 false false []])
     (by decide) rfl rfl rfl (by decide)⟩

end Dusty

namespace Dusty

theorem applyOp_preserves_inv (op : NavOp) (m : Model)
    (hnd : (treeIds m.rootDir).Nodup)
    (cur : DirInfo) (hres : resolve m.rootDir m.currentDir = some cur)
    (hcur : m.cursor ≤ cur.Children.length - 1) :
    (treeIds (applyOp op m).rootDir).Nodup ∧
    ∃ cur', resolve (applyOp op m).rootDir (applyOp op m).currentDir = some cur' ∧
      (applyOp op m).cursor ≤ cur'.Children.length - 1 := by
  cases op with
  | up =>
    dsimp only [applyOp]
    rw [moveUp]
    by_cases h : 0 < m.cursor
    · rw [if_pos h]
      exact ⟨hnd, cur, hres, by dsimp only; omega⟩
    · rw [if_neg h]
      exact ⟨hnd, cur, hres, hcur⟩
  | down =>
    dsimp only [applyOp]
    rw [moveDown, hres]
    dsimp only
    by_cases h : m.cursor + 1 < cur.Children.length
    · rw [if_pos h]
      exact ⟨hnd, cur, hres, by dsimp only; omega⟩
    · rw [if_neg h]
      exact ⟨hnd, cur, hres, hcur⟩
  | enter =>
    dsimp only [applyOp]
    rw [enterDir, hres]
    dsimp only
    by_cases hlen : 0 < cur.Children.length
    · rw [if_pos hlen]
      cases hsel : cur.Children[m.cursor]? with
      | none => exact ⟨hnd, cur, hres, hcur⟩
      | some sel =>
        dsimp only
        by_cases hcond : (sel.IsDir && decide (0 < sel.Children.length)) = true
        · rw [if_pos hcond]
          refine ⟨hnd, sel, ?_, by dsimp only; omega⟩
          dsimp only
          rw [resolve_append, hres]
          dsimp only [Option.bind]
          rw [resolve_cons]
          have hnd' : (cur.Children.map DirInfo.id).Nodup :=
            nodup_map_id_of_nodup_forestIds
              (nodup_forestIds_children (resolve_nodup hnd hres))
          rw [findChild_of_mem hnd' (List.getElem?_mem hsel) rfl]
          rfl
        · rw [if_neg hcond]
          exact ⟨hnd, cur, hres, hcur⟩
    · rw [if_neg hlen]
      exact ⟨hnd, cur, hres, hcur⟩
  | back =>
    dsimp only [applyOp]
    rw [exitDir]
    cases hlast : m.currentDir.getLast? with
    | none => exact ⟨hnd, cur, hres, hcur⟩
    | some lastId =>
      dsimp only
      have hdecomp := getLast?_decomp m.currentDir lastId hlast
      rw [← hdecomp, resolve_append] at hres
      cases hpar : resolve m.rootDir m.currentDir.dropLast with
      | none =>
        rw [hpar] at hres
        cases hres
      | some parent =>
        rw [hpar] at hres
        dsimp only [Option.bind] at hres
        rw [resolve_cons] at hres
        dsimp only
        cases hfc : findChild parent.Children lastId with
        | none =>
          rw [hfc] at hres
          cases hres
        | some c =>
          rw [hfc] at hres
          dsimp only at hres
          rw [resolve_nil] at hres
          injection hres with hres
          subst hres
          rcases findChild_eq_some hfc with ⟨hmem, hid⟩
          cases hidx : parent.Children.findIdx? (fun x => x.id == lastId) with
          | none =>
            exfalso
            rw [List.findIdx?_eq_none_iff] at hidx
            have hbad := hidx c hmem
            simp [hid] at hbad
          | some i =>
            refine ⟨hnd, parent, ?_, ?_⟩
            · dsimp only
              exact hpar
            · dsimp only
              have := findIdx?_lt_length _ _ _ hidx
              omega
  | toggle =>
    dsimp only [applyOp]
    rw [toggleSort]
    dsimp only
    refine ⟨(treeIds_sortChildren _ _).nodup_iff.mpr hnd, ?_⟩
    rw [resolve_sortChildren _ _ _ hnd, hres]
    exact ⟨sortChildren _ cur, rfl, by omega⟩
  | home =>
    dsimp only [applyOp]
    exact ⟨hnd, m.rootDir, rfl, by dsimp only [goToRoot]; omega⟩
  | del ok =>
    dsimp only [applyOp]
    cases ok with
    | false => exact ⟨hnd, cur, hres, hcur⟩
    | true =>
      rw [deleteComplete]
      simp only [if_true]
      rw [hres]
      dsimp only
      by_cases hlen : 0 < cur.Children.length
      · rw [if_pos hlen]
        cases hsel : cur.Children[m.cursor]? with
        | none => exact ⟨hnd, cur, hres, hcur⟩
        | some target =>
          dsimp only
          have hlt : m.cursor < cur.Children.length := by
            by_contra hge
            rw [List.getElem?_eq_none (by omega)] at hsel
            cases hsel
          refine ⟨?_, ?_⟩
          · exact (treeIds_deleteAt_sublist target.id m.currentDir m.rootDir).nodup hnd
          · refine ⟨_, resolve_deleteAt target.id m.currentDir m.rootDir cur hres, ?_⟩
            simp only [DirInfo.Children_node]
            rcases removeFirstById_length_cases cur.Children target.id with hc | hc
            · by_cases hbr : (removeFirstById cur.Children target.id).length ≤ m.cursor ∧
                  0 < m.cursor
              · rw [if_pos hbr]
                omega
              · rw [if_neg hbr]
                omega
            · by_cases hbr : (removeFirstById cur.Children target.id).length ≤ m.cursor ∧
                  0 < m.cursor
              · rw [if_pos hbr]
                omega
              · rw [if_neg hbr]
                omega
      · rw [if_neg hlen]
        exact ⟨hnd, cur, hres, hcur⟩

end Dusty

namespace Dusty

theorem runOps_preserves_inv (ops : List NavOp) :
    ∀ m : Model, (treeIds m.rootDir).Nodup →
      (∃ cur, resolve m.rootDir m.currentDir = some cur ∧
        m.cursor ≤ cur.Children.length - 1) →
      (treeIds (runOps ops m).rootDir).Nodup ∧
      ∃ cur, resolve (runOps ops m).rootDir (runOps ops m).currentDir = some cur ∧
        (runOps ops m).cursor ≤ cur.Children.length - 1 := by
  induction ops with
  | nil =>
    intro m hnd h
    exact ⟨hnd, h⟩
  | cons op ops ih =>
    intro m hnd h
    rcases h with ⟨cur, hres, hcur⟩
    rcases applyOp_preserves_inv op m hnd cur hres hcur with ⟨hnd', h'⟩
    exact ih (applyOp op m) hnd' h'

/-- C10: starting from the state the scan hands to the navigator
(current node = root, cursor 0), every sequence of cursor moves,
enter/exit, sort toggles, jumps to root, and completed deletes keeps the
cursor within `[0, max 0 (len(children) - 1)]` of the current node —
so the unguarded `Children[m.cursor]` lookups in the enter and delete
handlers are always in bounds whenever the children list is non-empty. -/
theorem C10_cursor_safety (fs : FSEntry) (path : String) (t : DirInfo) (k : Nat)
    (ops : List NavOp) (hscan : calculateDirSize fs path 0 = (some t, k)) :
    ∃ cur, resolve (runOps ops ⟨t, [], 0, .size⟩).rootDir
        (runOps ops ⟨t, [], 0, .size⟩).currentDir = some cur ∧
      (runOps ops ⟨t, [], 0, .size⟩).cursor ≤ cur.Children.length - 1 ∧
      (0 < cur.Children.length →
        (runOps ops ⟨t, [], 0, .size⟩).cursor < cur.Children.length) := by
  have hnd : (treeIds t).Nodup := by
    have h := (scan_ids fs path 0).2 t (by rw [hscan])
    exact h.2
  rcases runOps_preserves_inv ops ⟨t, [], 0, .size⟩ hnd ⟨t, rfl, by dsimp only; omega⟩ with
    ⟨_, cur, hres, hcur⟩
  exact ⟨cur, hres, hcur, by omega⟩

/-- Witness for C10 on a scanned two-file directory and a concrete
operation sequence containing a successful delete. -/
theorem C10_cursor_safety_witness :
    ∃ cur,
      resolve (runOps [.down, .del true, .up]
          ⟨.node 0 "top" 3 true false
            [.node 2 "top/b" 2 false false [], .node 1 "top/a" 1 false false []],
           [], 0, .size⟩).rootDir
        (runOps [.down, .del true, .up]
          ⟨.node 0 "top" 3 true false
            [.node 2 "top/b" 2 false false [], .node 1 "top/a" 1 false false []],
           [], 0, .size⟩).currentDir = some cur ∧
      (runOps [.down, .del true, .up]
        ⟨.node 0 "top" 3 true false
          [.node 2 "top/b" 2 false false [], .node 1 "top/a" 1 false false []],
         [], 0, .size⟩).cursor ≤ cur.Children.length - 1 ∧
      (0 < cur.Children.length →
        (runOps [.down, .del true, .up]
          ⟨.node 0 "top" 3 true false
            [.node 2 "top/b" 2 false false [], .node 1 "top/a" 1 false false []],
           [], 0, .size⟩).cursor < cur.Children.length) :=
  C10_cursor_safety (.dir "top" [.file "a" 1, .file "b" 2]) "top" _ 3
    [.down, .del true, .up]
    (by simp [calculateDirSize, scanEntries, joinPath, entryName, sumSizes, sortSlice,
      insertLess, sizeLess])

/-- C3: the delete contract.  On failure the whole model — tree, cursor,
navigation state — is untouched.  On success the target (the child under
the cursor) is removed from the current node's children exactly once,
matched by identity; nothing else enters or leaves that children list;
the cursor is clamped within the shrunk list; the navigation state is
otherwise unchanged; and the current node and every ancestor up to the
root shrink by exactly the target's former size. -/
theorem C3_delete_contract :
    (∀ m : Model, deleteComplete false m = m) ∧
    (∀ (m : Model) (cur target : DirInfo),
      (treeIds m.rootDir).Nodup →
      sizeOk m.rootDir = true → leafOk m.rootDir = true →
      resolve m.rootDir m.currentDir = some cur →
      cur.Children[m.cursor]? = some target →
      ∃ cur', resolve (deleteComplete true m).rootDir m.currentDir = some cur' ∧
        (deleteComplete true m).currentDir = m.currentDir ∧
        (deleteComplete true m).sortBy = m.sortBy ∧
        cur'.Children.length + 1 = cur.Children.length ∧
        (∀ c, c ∈ cur'.Children ↔ (c ∈ cur.Children ∧ c.id ≠ target.id)) ∧
        (deleteComplete true m).cursor ≤ cur'.Children.length - 1 ∧
        (∀ (j : Nat) (a a' : DirInfo),
          resolve m.rootDir (m.currentDir.take j) = some a →
          resolve (deleteComplete true m).rootDir (m.currentDir.take j) = some a' →
          a'.Size = a.Size - target.Size)) := by
  constructor
  · intro m
    rw [deleteComplete]
    simp
  · intro m cur target hnd hsz hlf hres hsel
    have hlt : m.cursor < cur.Children.length := by
      by_contra hge
      rw [List.getElem?_eq_none (by omega)] at hsel
      cases hsel
    have hndc : (cur.Children.map DirInfo.id).Nodup :=
      nodup_map_id_of_nodup_forestIds (nodup_forestIds_children (resolve_nodup hnd hres))
    have hfc : findChild cur.Children target.id = some target :=
      findChild_of_mem hndc (List.getElem?_mem hsel) rfl
    have hdel : deleteComplete true m =
        { m with
          rootDir := deleteAt target.id m.currentDir m.rootDir,
          cursor := if (removeFirstById cur.Children target.id).length ≤ m.cursor ∧
              0 < m.cursor then m.cursor - 1 else m.cursor } := by
      rw [deleteComplete]
      simp only [if_true]
      rw [hres]
      dsimp only
      rw [if_pos (by omega), hsel]
    rw [hdel]
    refine ⟨_, resolve_deleteAt target.id m.currentDir m.rootDir cur hres, rfl, rfl, ?_, ?_,
      ?_, ?_⟩
    · simp only [DirInfo.Children_node]
      exact (removeFirstById_found hfc).1
    · intro c
      simp only [DirInfo.Children_node]
      exact removeFirstById_mem_iff hndc c
    · simp only [DirInfo.Children_node]
      rcases removeFirstById_length_cases cur.Children target.id with hc | hc
      · by_cases hbr : (removeFirstById cur.Children target.id).length ≤ m.cursor ∧
            0 < m.cursor
        · rw [if_pos hbr]
          omega
        · rw [if_neg hbr]
          omega
      · by_cases hbr : (removeFirstById cur.Children target.id).length ≤ m.cursor ∧
            0 < m.cursor
        · rw [if_pos hbr]
          omega
        · rw [if_neg hbr]
          omega
    · intro j a a' ha ha'
      rcases deleteAt_size_delta target.id m.currentDir m.rootDir cur target hsz hlf hres
        hfc j with ⟨a₀, a₀', ha₀, ha₀', hδ⟩
      rw [ha₀] at ha
      injection ha with ha
      rw [ha₀'] at ha'
      injection ha' with ha'
      rw [← ha, ← ha']
      exact hδ

end Dusty

namespace Dusty

/-- Witness for C3: deleting the selected 2-byte child of a scanned
two-file root. -/
theorem C3_delete_contract_witness :
    ∃ cur', resolve (deleteComplete true
        (⟨.node 0 "top" 3 true false
          [.node 2 "top/b" 2 false false [], .node 1 "top/a" 1 false false []],
         [], 0, .size⟩ : Model)).rootDir ([] : List Nat) = some cur' ∧
      (deleteComplete true
        (⟨.node 0 "top" 3 true false
          [.node 2 "top/b" 2 false false [], .node 1 "top/a" 1 false false []],
         [], 0, .size⟩ : Model)).currentDir = ([] : List Nat) ∧
      (deleteComplete true
        (⟨.node 0 "top" 3 true false
          [.node 2 "top/b" 2 false false [], .node 1 "top/a" 1 false false []],
         [], 0, .size⟩ : Model)).sortBy = SortMode.size ∧
      cur'.Children.length + 1 =
        (DirInfo.node 0 "top" 3 true false
          [.node 2 "top/b" 2 false false [],
           .node 1 "top/a" 1 false false []]).Children.length ∧
      (∀ c, c ∈ cur'.Children ↔
        (c ∈ (DirInfo.node 0 "top" 3 true false
          [.node 2 "top/b" 2 false false [],
           .node 1 "top/a" 1 false false []]).Children ∧
         c.id ≠ (DirInfo.node 2 "top/b" 2 false false []).id)) ∧
      (deleteComplete true
        (⟨.node 0 "top" 3 true false
          [.node 2 "top/b" 2 false false [], .node 1 "top/a" 1 false false []],
         [], 0, .size⟩ : Model)).cursor ≤ cur'.Children.length - 1 ∧
      (∀ (j : Nat) (a a' : DirInfo),
        resolve (DirInfo.node 0 "top" 3 true false
          [.node 2 "top/b" 2 false false [], .node 1 "top/a" 1 false false []])
          (([] : List Nat).take j) = some a →
        resolve (deleteComplete true
          (⟨.node 0 "top" 3 true false
            [.node 2 "top/b" 2 false false [], .node 1 "top/a" 1 false false []],
           [], 0, .size⟩ : Model)).rootDir (([] : List Nat).take j) = some a' →
        a'.Size = a.Size - (DirInfo.node 2 "top/b" 2 false false []).Size) :=
  C3_delete_contract.2
    ⟨.node 0 "top" 3 true false
      [.node 2 "top/b" 2 false false [], .node 1 "top/a" 1 false false []],
     [], 0, .size⟩
    (.node 0 "top" 3 true false
      [.node 2 "top/b" 2 false false [], .node 1 "top/a" 1 false false []])
    (.node 2 "top/b" 2 false false [])
    (by decide) (by decide) (by decide) rfl rfl

end Dusty
